import Mathlib

/-! nanosort: a shallow embedding of `nanosort.hpp` and its verification.

The C++ header sorts a random-access range `[first, last)` in place.  The
embedding models

* the storage the iterators point into as a total function `Nat → α`
  (an address space: `first[j]` is `a (first + j)`, a store `first[j] = v`
  is `Function.update a (first + j) v`);
* iterators as natural-number addresses, `last - first` being the size of
  the range (the code only ever subtracts a smaller iterator from a larger
  one, so truncating subtraction on `Nat` agrees with `ptrdiff_t`);
* the comparator as a Boolean function `comp : α → α → Bool`;
* every `for`/`while` loop as a recursive function with the loop variables
  as arguments; the driver loop of `sort`, which the code does not bound,
  takes a `fuel` argument and returns `none` when it is exhausted.
-/

set_option linter.unusedVariables false

namespace nanosort_detail

variable {α : Type}

/-- `Less::operator()` on the natural numbers: `l < r`. -/
def Less (l r : Nat) : Bool := decide (l < r)

/-- `swap(l, r)` applied to the two slots `i` and `j` of the storage:
`t = l; l = r; r = t`. -/
@[macro_inline] def swap (a : Nat → α) (i j : Nat) : Nat → α :=
  let t := a i
  let a1 := Function.update a i (a j)
  Function.update a1 j t

/-- The comparison network of `median5` on the five sampled values. -/
def median5Net (comp : α → α → Bool) (e0 e1 e2 e3 e4 : α) : α :=
  let (e1, e0) := if comp e1 e0 then (e0, e1) else (e1, e0)
  let (e4, e3) := if comp e4 e3 then (e3, e4) else (e4, e3)
  let (e3, e0) := if comp e3 e0 then (e0, e3) else (e3, e0)
  let (e1, e4) := if comp e1 e4 then (e4, e1) else (e1, e4)
  let (e2, e1) := if comp e2 e1 then (e1, e2) else (e2, e1)
  let (e2, e3) := if comp e3 e2 then (e3, e2) else (e2, e3)
  let (e2, e1) := if comp e2 e1 then (e1, e2) else (e2, e1)
  e2

/-- `median5(first, last, comp)`: samples five slots of the range and runs the
comparison network on copies of them; the storage is not written. -/
def median5 (comp : α → α → Bool) (a : Nat → α) (first last : Nat) : α :=
  let n := last - first
  let e0 := a (first + (n >>> 2) * 0)
  let e1 := a (first + (n >>> 2) * 1)
  let e2 := a (first + (n >>> 2) * 2)
  let e3 := a (first + (n >>> 2) * 3)
  let e4 := a (first + (n - 1))
  median5Net comp e0 e1 e2 e3 e4

/-- The scan of `partition`: `k` is the number of iterations left
(`last - it`), `res` the write cursor, `it` the read cursor. -/
def partitionLoop (comp : α → α → Bool) (pivot : α) :
    Nat → (Nat → α) → Nat → Nat → (Nat → α) × Nat
  | 0, a, res, _ => (a, res)
  | k + 1, a, res, it =>
    let r := comp (a it) pivot
    let a1 := swap a res it
    partitionLoop comp pivot k a1 (res + r.toNat) (it + 1)

/-- `partition(pivot, first, last, comp)`: the storage after the scan and the
returned boundary. -/
def partition (comp : α → α → Bool) (pivot : α) (a : Nat → α) (first last : Nat) :
    (Nat → α) × Nat :=
  partitionLoop comp pivot (last - first) a first first

/-- The scan of `partition_rev`: as `partitionLoop`, testing
`comp(pivot, *it)` and advancing the write cursor when it is false. -/
def partitionRevLoop (comp : α → α → Bool) (pivot : α) :
    Nat → (Nat → α) → Nat → Nat → (Nat → α) × Nat
  | 0, a, res, _ => (a, res)
  | k + 1, a, res, it =>
    let r := comp pivot (a it)
    let a1 := swap a res it
    partitionRevLoop comp pivot k a1 (res + (!r).toNat) (it + 1)

/-- `partition_rev(pivot, first, last, comp)`. -/
def partition_rev (comp : α → α → Bool) (pivot : α) (a : Nat → α) (first last : Nat) :
    (Nat → α) × Nat :=
  partitionRevLoop comp pivot (last - first) a first first

/-- The inner loop of `BubbleSort`: `k` iterations are left, `j` is the
loop index, `x` the running maximum. -/
def BubbleSortInner (comp : α → α → Bool) (first : Nat) :
    Nat → Nat → (Nat → α) → α → (Nat → α) × α
  | 0, _, a, x => (a, x)
  | k + 1, j, a, x =>
    let y := a (first + j)
    let is_smaller := comp y x
    let a1 := Function.update a (first + j - 1) (if is_smaller then y else x)
    let x1 := if is_smaller then x else y
    BubbleSortInner comp first k (j + 1) a1 x1

/-- The outer loop of `BubbleSort`, `for (i = n; i > 1; i--)`, by recursion
on `i`. -/
def BubbleSortLoop (comp : α → α → Bool) (first : Nat) : Nat → (Nat → α) → (Nat → α)
  | 0, a => a
  | 1, a => a
  | i + 2, a =>
    let x := a (first + 0)
    let (a1, x1) := BubbleSortInner comp first (i + 1) 1 a x
    let a2 := Function.update a1 (first + (i + 2) - 1) x1
    BubbleSortLoop comp first (i + 1) a2

/-- `BubbleSort(first, last, comp)`. -/
def BubbleSort (comp : α → α → Bool) (a : Nat → α) (first last : Nat) : Nat → α :=
  BubbleSortLoop comp first (last - first) a

/-- The inner loop of `BubbleSort2`: `k` iterations are left (`i - j`), `j`
is the loop index, `x` and `y` the two running candidates. -/
def BubbleSort2Inner (comp : α → α → Bool) (first : Nat) :
    Nat → Nat → (Nat → α) → α → α → (Nat → α) × α × α
  | 0, _, a, x, y => (a, x, y)
  | k + 1, j, a, x, y =>
    let z := a (first + j)
    let is_smaller := comp z y
    let w := if is_smaller then z else y
    let y1 := if is_smaller then y else z
    let is_smaller := comp z x
    let a1 := Function.update a (first + j - 2) (if is_smaller then z else x)
    let x1 := if is_smaller then x else w
    BubbleSort2Inner comp first k (j + 1) a1 x1 y1

/-- The outer loop of `BubbleSort2`, `for (i = n; i > 1; i -= 2)`, by
recursion on `i`. -/
def BubbleSort2Loop (comp : α → α → Bool) (first : Nat) : Nat → (Nat → α) → (Nat → α)
  | 0, a => a
  | 1, a => a
  | i + 2, a =>
    let x := a (first + 0)
    let y := a (first + 1)
    let (y, x) := if comp y x then (x, y) else (y, x)
    let (a1, x1, y1) := BubbleSort2Inner comp first i 2 a x y
    let a2 := Function.update a1 (first + (i + 2) - 2) x1
    let a3 := Function.update a2 (first + (i + 2) - 1) y1
    BubbleSort2Loop comp first i a3

/-- `BubbleSort2(first, last, comp)`. -/
def BubbleSort2 (comp : α → α → Bool) (a : Nat → α) (first last : Nat) : Nat → α :=
  BubbleSort2Loop comp first (last - first) a

/-- The constant `kSmallSortThreshold` of `sort`. -/
def kSmallSortThreshold : Nat := 16

/-- The body of the driver loop of `sort` up to the branch: pivot
selection, `partition`, and the skew correction.  Returns the storage and
the two boundaries `mid` and `midr`. -/
def sortStep (comp : α → α → Bool) (a : Nat → α) (first last : Nat) :
    (Nat → α) × Nat × Nat :=
  let pivot := median5 comp a first last
  let (a1, mid) := partition comp pivot a first last
  let skew := decide (mid - first ≤ (last - first) >>> 3)
  let (a2, midr) := if skew then partition_rev comp pivot a1 mid last else (a1, mid)
  (a2, mid, midr)

/-- `sort(first, last, comp)`.  One unit of `fuel` is spent per call and per
iteration of the `while` loop; `none` means the fuel ran out. -/
def sort (comp : α → α → Bool) : Nat → (Nat → α) → Nat → Nat → Option (Nat → α)
  | 0, _, _, _ => none
  | fuel + 1, a, first, last =>
    if last - first > kSmallSortThreshold then
      let (a2, mid, midr) := sortStep comp a first last
      if mid - first ≤ last - midr then
        (sort comp fuel a2 first mid).bind fun a3 => sort comp fuel a3 midr last
      else
        (sort comp fuel a2 midr last).bind fun a3 => sort comp fuel a3 first mid
    else
      some (BubbleSort2 comp a first last)

/-- `sort` instrumented with the nesting depth of its calls: the second
component is the greatest depth, relative to this call, at which a call of
`sort` is made below it (`0` when it makes none). -/
def sortDepth (comp : α → α → Bool) : Nat → (Nat → α) → Nat → Nat → Option ((Nat → α) × Nat)
  | 0, _, _, _ => none
  | fuel + 1, a, first, last =>
    if last - first > kSmallSortThreshold then
      let (a2, mid, midr) := sortStep comp a first last
      if mid - first ≤ last - midr then
        (sortDepth comp fuel a2 first mid).bind fun r1 =>
          (sortDepth comp fuel r1.1 midr last).map fun r2 => (r2.1, max (r1.2 + 1) r2.2)
      else
        (sortDepth comp fuel a2 midr last).bind fun r1 =>
          (sortDepth comp fuel r1.1 first mid).map fun r2 => (r2.1, max (r1.2 + 1) r2.2)
    else
      some (BubbleSort2 comp a first last, 0)

end nanosort_detail

/-- `nanosort(first, last, comp)`. -/
def nanosort {α : Type} (comp : α → α → Bool) (fuel : Nat) (a : Nat → α) (first last : Nat) :
    Option (Nat → α) :=
  nanosort_detail.sort comp fuel a first last

/-- `nanosort(first, last)`, on natural numbers, with the default order. -/
def nanosortLess (fuel : Nat) (a : Nat → Nat) (first last : Nat) : Option (Nat → Nat) :=
  nanosort_detail.sort nanosort_detail.Less fuel a first last

namespace nanosort_detail

variable {α : Type}

/-- The contents of the range `[first, last)` of the storage, as a list. -/
def window (a : Nat → α) (first last : Nat) : List α :=
  (List.range' first (last - first)).map a

/-- The storage holding the list `l` from address `0` on, `d` elsewhere. -/
def ofList (l : List α) (d : α) : Nat → α := fun i => l.getD i d

/-- A comparator is a strict weak order: irreflexive, transitive, and with
transitive incomparability. -/
structure StrictWeakOrder (comp : α → α → Bool) : Prop where
  irrefl : ∀ x, comp x x = false
  trans : ∀ x y z, comp x y = true → comp y z = true → comp x z = true
  equiv_trans : ∀ x y z, comp x y = false → comp y x = false →
    comp y z = false → comp z y = false → comp x z = false ∧ comp z x = false

/-- The range `[first, last)` is ordered: no later element compares less
than an earlier one. -/
def Ordered (comp : α → α → Bool) (a : Nat → α) (first last : Nat) : Prop :=
  ∀ i j, first ≤ i → i < j → j < last → comp (a j) (a i) = false

/-- The storage `b` is the storage `a` with the range `[first, last)`
rearranged: nothing outside the range changed and the range holds the same
elements with the same multiplicities. -/
def RangePerm (a b : Nat → α) (first last : Nat) : Prop :=
  (∀ i, i < first ∨ last ≤ i → b i = a i) ∧ (window b first last).Perm (window a first last)

/-- A comparator that is transitive and whose negation is transitive.  Every
strict weak order is one, and so are non-strict orders such as `≤`. -/
structure TransNegTrans (comp : α → α → Bool) : Prop where
  trans : ∀ x y z, comp x y = true → comp y z = true → comp x z = true
  neg_trans : ∀ x y z, comp x y = false → comp y z = false → comp x z = false

/-- The relation "`v` does not compare less than `u`" between an earlier
element `u` and a later element `v` of an ordered range. -/
def NotLess (comp : α → α → Bool) (u v : α) : Prop := comp v u = false

/-- The descending sequence `20, 19, ..., 1`. -/
def descending20 : List Nat :=
  [20, 19, 18, 17, 16, 15, 14, 13, 12, 11, 10, 9, 8, 7, 6, 5, 4, 3, 2, 1]

/-- The comparator that answers `true` on every pair. -/
def constTrue (_ _ : Nat) : Bool := true

/-- The comparator "differs from": irreflexive, but not a strict weak order. -/
def notEqual (x y : Nat) : Bool := x != y

/-- The non-strict order `≤` used as a comparator. -/
def lessEq (x y : Nat) : Bool := decide (x ≤ y)

/-- A comparator whose only true pair is `(2, 0)`: a strict partial order
that is not a strict weak order (`1` is incomparable with both `0` and `2`). -/
def notWeak (x y : Nat) : Bool := x == 2 && y == 0

/-- The comparison network of `median5` with a counter `c` of the
evaluations of the comparator: the counter is advanced at each `comp(...)`. -/
def median5NetCount (comp : α → α → Bool) (e0 e1 e2 e3 e4 : α) (c : Nat) : α × Nat :=
  let c := c + 1
  let (e1, e0) := if comp e1 e0 then (e0, e1) else (e1, e0)
  let c := c + 1
  let (e4, e3) := if comp e4 e3 then (e3, e4) else (e4, e3)
  let c := c + 1
  let (e3, e0) := if comp e3 e0 then (e0, e3) else (e3, e0)
  let c := c + 1
  let (e1, e4) := if comp e1 e4 then (e4, e1) else (e1, e4)
  let c := c + 1
  let (e2, e1) := if comp e2 e1 then (e1, e2) else (e2, e1)
  let c := c + 1
  let (e2, e3) := if comp e3 e2 then (e3, e2) else (e2, e3)
  let c := c + 1
  let (e2, e1) := if comp e2 e1 then (e1, e2) else (e2, e1)
  (e2, c)

/-- `median5` with the counter of comparator evaluations. -/
def median5Count (comp : α → α → Bool) (a : Nat → α) (first last : Nat) (c : Nat) : α × Nat :=
  let n := last - first
  let e0 := a (first + (n >>> 2) * 0)
  let e1 := a (first + (n >>> 2) * 1)
  let e2 := a (first + (n >>> 2) * 2)
  let e3 := a (first + (n >>> 2) * 3)
  let e4 := a (first + (n - 1))
  median5NetCount comp e0 e1 e2 e3 e4 c

/-- The scan of `partition` with the counter of comparator evaluations. -/
def partitionLoopCount (comp : α → α → Bool) (pivot : α) :
    Nat → (Nat → α) → Nat → Nat → Nat → (Nat → α) × Nat × Nat
  | 0, a, res, _, c => (a, res, c)
  | k + 1, a, res, it, c =>
    let r := comp (a it) pivot
    let c := c + 1
    let a1 := swap a res it
    partitionLoopCount comp pivot k a1 (res + r.toNat) (it + 1) c

/-- The scan of `partition_rev` with the counter of comparator evaluations. -/
def partitionRevLoopCount (comp : α → α → Bool) (pivot : α) :
    Nat → (Nat → α) → Nat → Nat → Nat → (Nat → α) × Nat × Nat
  | 0, a, res, _, c => (a, res, c)
  | k + 1, a, res, it, c =>
    let r := comp pivot (a it)
    let c := c + 1
    let a1 := swap a res it
    partitionRevLoopCount comp pivot k a1 (res + (!r).toNat) (it + 1) c

/-- The inner loop of `BubbleSort2` with the counter of comparator
evaluations. -/
def BubbleSort2InnerCount (comp : α → α → Bool) (first : Nat) :
    Nat → Nat → (Nat → α) → α → α → Nat → (Nat → α) × α × α × Nat
  | 0, _, a, x, y, c => (a, x, y, c)
  | k + 1, j, a, x, y, c =>
    let z := a (first + j)
    let is_smaller := comp z y
    let c := c + 1
    let w := if is_smaller then z else y
    let y1 := if is_smaller then y else z
    let is_smaller := comp z x
    let c := c + 1
    let a1 := Function.update a (first + j - 2) (if is_smaller then z else x)
    let x1 := if is_smaller then x else w
    BubbleSort2InnerCount comp first k (j + 1) a1 x1 y1 c

/-- The outer loop of `BubbleSort2` with the counter of comparator
evaluations. -/
def BubbleSort2LoopCount (comp : α → α → Bool) (first : Nat) :
    Nat → (Nat → α) → Nat → (Nat → α) × Nat
  | 0, a, c => (a, c)
  | 1, a, c => (a, c)
  | i + 2, a, c =>
    let x := a (first + 0)
    let y := a (first + 1)
    let c := c + 1
    let (y, x) := if comp y x then (x, y) else (y, x)
    let (a1, x1, y1, c) := BubbleSort2InnerCount comp first i 2 a x y c
    let a2 := Function.update a1 (first + (i + 2) - 2) x1
    let a3 := Function.update a2 (first + (i + 2) - 1) y1
    BubbleSort2LoopCount comp first i a3 c

/-- `sort` with the counter of comparator evaluations: the storage it
leaves and the number of evaluations added to `c`. -/
def sortCount (comp : α → α → Bool) :
    Nat → (Nat → α) → Nat → Nat → Nat → Option ((Nat → α) × Nat)
  | 0, _, _, _, _ => none
  | fuel + 1, a, first, last, c =>
    if last - first > kSmallSortThreshold then
      let (pivot, c) := median5Count comp a first last c
      let (a1, mid, c) := partitionLoopCount comp pivot (last - first) a first first c
      let skew := decide (mid - first ≤ (last - first) >>> 3)
      let (a2, midr, c) :=
        if skew then partitionRevLoopCount comp pivot (last - mid) a1 mid mid c else (a1, mid, c)
      if mid - first ≤ last - midr then
        (sortCount comp fuel a2 first mid c).bind fun r => sortCount comp fuel r.1 midr last r.2
      else
        (sortCount comp fuel a2 midr last c).bind fun r => sortCount comp fuel r.1 first mid r.2
    else
      some (BubbleSort2LoopCount comp first (last - first) a c)

/-- A range with a skewed first partition: the pivot `3` is its least value. -/
def skewed20 : List Nat := [3, 5, 4, 5, 4, 3, 5, 4, 5, 4, 3, 5, 4, 5, 4, 3, 5, 4, 5, 3]

/-- The body of the outer loop of `BubbleSort2` for the window size `i`
(`i ≥ 2`): the storage after one pass. -/
def BubbleSort2Pass (comp : α → α → Bool) (first i : Nat) (a : Nat → α) : Nat → α :=
  let x := a (first + 0)
  let y := a (first + 1)
  let (y, x) := if comp y x then (x, y) else (y, x)
  let (a1, x1, y1) := BubbleSort2Inner comp first (i - 2) 2 a x y
  let a2 := Function.update a1 (first + i - 2) x1
  Function.update a2 (first + i - 1) y1

/-- The five addresses `median5` reads, in the order of its locals `e0` to
`e4`. -/
def median5Positions (first last : Nat) : List Nat :=
  let n := last - first
  [first + (n >>> 2) * 0, first + (n >>> 2) * 1, first + (n >>> 2) * 2,
    first + (n >>> 2) * 3, first + (n - 1)]

/-- A range of 18 elements, for the positions read by `median5`. -/
def samples18 : List Nat := [1, 0, 0, 0, 2, 0, 0, 0, 0, 0, 0, 0, 0, 0, 0, 0, 0, 3]

/-- The range `samples18` with other values at the positions 8 and 12. -/
def samples18Alt : List Nat := [1, 0, 0, 0, 2, 0, 0, 0, 9, 0, 0, 0, 9, 0, 0, 0, 0, 3]

/-- The inner loop of `BubbleSort` as a function on the list of the elements
it reads: `x` is the running maximum; the result is the list of the values
it stores, in the order of the stores, and the final `x`. -/
def bubbleL (comp : α → α → Bool) : α → List α → List α × α
  | x, [] => ([], x)
  | x, y :: l =>
    let is_smaller := comp y x
    let r := bubbleL comp (if is_smaller then x else y) l
    ((if is_smaller then y else x) :: r.1, r.2)

/-- The inner loop of `BubbleSort2` as a function on the list of the elements
it reads: the values it stores and the final `x` and `y`. -/
def bubble2L (comp : α → α → Bool) : α → α → List α → List α × α × α
  | x, y, [] => ([], x, y)
  | x, y, z :: l =>
    let r := bubble2L comp (if comp z x then x else (if comp z y then z else y))
      (if comp z y then y else z) l
    ((if comp z x then z else x) :: r.1, r.2)

/-- The body of the outer loop of `BubbleSort` for the window size `i`
(`i ≥ 1`): the storage after one pass. -/
def BubbleSortPass (comp : α → α → Bool) (first i : Nat) (a : Nat → α) : Nat → α :=
  let x := a (first + 0)
  let (a1, x1) := BubbleSortInner comp first (i - 1) 1 a x
  Function.update a1 (first + i - 1) x1

/-- The test "`u` is equivalent to `v`": neither compares less than the
other. -/
def equivTo (comp : α → α → Bool) (v u : α) : Bool := !comp v u && !comp u v

/-- The order on pairs that compares the first components only. -/
def keyLess (p q : Nat × Nat) : Bool := decide (p.1 < q.1)

end nanosort_detail

open nanosort_detail

/-! ## The contents of a range -/

namespace nanosort_detail

variable {α : Type}

theorem window_length (a : Nat → α) (first last : Nat) :
    (window a first last).length = last - first := by
  simp [window]

theorem mem_window {a : Nat → α} {first last : Nat} {x : α} :
    x ∈ window a first last ↔ ∃ i, first ≤ i ∧ i < last ∧ a i = x := by
  simp only [window, List.mem_map, List.mem_range'_1]
  constructor
  · rintro ⟨i, ⟨h1, h2⟩, rfl⟩
    exact ⟨i, h1, by omega, rfl⟩
  · rintro ⟨i, h1, h2, rfl⟩
    exact ⟨i, ⟨h1, by omega⟩, rfl⟩

theorem window_split (a : Nat → α) {first mid last : Nat} (h1 : first ≤ mid) (h2 : mid ≤ last) :
    window a first last = window a first mid ++ window a mid last := by
  unfold window
  rw [← List.map_append]
  congr 1
  have h : last - first = (last - mid) + (mid - first) := by omega
  have h3 : mid = first + (mid - first) := by omega
  rw [h, ← List.range'_append_1, ← h3]

theorem window_congr {a b : Nat → α} {first last : Nat}
    (h : ∀ i, first ≤ i → i < last → a i = b i) : window a first last = window b first last := by
  unfold window
  apply List.map_congr_left
  intro i hi
  rw [List.mem_range'_1] at hi
  exact h i hi.1 (by omega)

theorem window_empty (a : Nat → α) {first last : Nat} (h : last ≤ first) :
    window a first last = [] := by
  simp [window, Nat.sub_eq_zero_of_le h]

theorem window_succ (a : Nat → α) {first last : Nat} (h : first < last) :
    window a first last = a first :: window a (first + 1) last := by
  unfold window
  obtain ⟨k, hk⟩ : ∃ k, last - first = k + 1 := ⟨last - first - 1, by omega⟩
  rw [hk, List.range'_succ]
  simp
  congr 2
  omega

theorem window_last (a : Nat → α) {first last : Nat} (h : first ≤ last) :
    window a first (last + 1) = window a first last ++ [a last] := by
  rw [window_split a h (Nat.le_succ last), window_succ a (Nat.lt_succ_self last),
    window_empty a (le_refl _)]

theorem RangePerm.refl (a : Nat → α) (first last : Nat) : RangePerm a a first last :=
  ⟨fun _ _ => rfl, List.Perm.refl _⟩

theorem RangePerm.trans {a b c : Nat → α} {first last : Nat}
    (h1 : RangePerm a b first last) (h2 : RangePerm b c first last) : RangePerm a c first last :=
  ⟨fun i hi => (h2.1 i hi).trans (h1.1 i hi), h2.2.trans h1.2⟩

theorem RangePerm.mono {a b : Nat → α} {f l first last : Nat}
    (h : RangePerm a b f l) (hf : first ≤ f) (hl : l ≤ last) : RangePerm a b first last := by
  refine ⟨fun i hi => h.1 i (by omega), ?_⟩
  by_cases hfl : f ≤ l
  · rw [window_split b (show first ≤ f from hf) (show f ≤ last by omega),
      window_split b hfl hl, window_split a (show first ≤ f from hf) (show f ≤ last by omega),
      window_split a hfl hl,
      window_congr (fun i _ h2 => h.1 i (Or.inl h2) : ∀ i, first ≤ i → i < f → b i = a i),
      window_congr (fun i h1 _ => h.1 i (Or.inr h1) : ∀ i, l ≤ i → i < last → b i = a i)]
    exact (h.2.append_right _).append_left _
  · rw [window_congr (fun i _ _ => h.1 i (by omega) : ∀ i, first ≤ i → i < last → b i = a i)]

theorem swap_eq_comp (a : Nat → α) (i j : Nat) : swap a i j = a ∘ (Equiv.swap i j) := by
  funext k
  simp only [swap, Function.comp, Function.update_apply, Equiv.swap_apply_def]
  by_cases h1 : k = j
  · subst h1
    by_cases h2 : k = i
    · subst h2; simp
    · simp [h2]
  · by_cases h2 : k = i
    · subst h2; simp [h1]
    · simp [h1, h2]

theorem swap_rangePerm (a : Nat → α) {first last i j : Nat}
    (hi : first ≤ i ∧ i < last) (hj : first ≤ j ∧ j < last) :
    RangePerm a (swap a i j) first last := by
  constructor
  · intro k hk
    have h1 : k ≠ i := by omega
    have h2 : k ≠ j := by omega
    simp [swap, Function.update_apply, h1, h2]
  · rw [swap_eq_comp]
    unfold window
    rw [← List.map_map]
    apply List.Perm.map
    rw [List.perm_ext_iff_of_nodup ((List.nodup_range' _ _).map (Equiv.injective _))
      (List.nodup_range' _ _)]
    intro k
    simp only [List.mem_map, List.mem_range'_1]
    constructor
    · rintro ⟨m, hm, rfl⟩
      rw [Equiv.swap_apply_def]
      split_ifs <;> omega
    · intro hk
      refine ⟨Equiv.swap i j k, ?_, by simp⟩
      rw [Equiv.swap_apply_def]
      split_ifs <;> omega

/-! ## The partition scans -/

theorem swap_apply_left (a : Nat → α) (i j : Nat) : swap a i j i = a j := by
  simp only [swap, Function.update_apply]
  by_cases h : i = j
  · simp [h]
  · simp [h]

theorem swap_apply_right (a : Nat → α) (i j : Nat) : swap a i j j = a i := by
  simp [swap]

theorem swap_apply_of_ne (a : Nat → α) {i j k : Nat} (hi : k ≠ i) (hj : k ≠ j) :
    swap a i j k = a k := by
  simp [swap, Function.update_apply, hi, hj]

/-- The loop invariant of `partition`, carried to the end of the scan. -/
theorem partitionLoop_spec (comp : α → α → Bool) (pivot : α) (first : Nat) :
    ∀ (k : Nat) (a : Nat → α) (res it : Nat), first ≤ res → res ≤ it →
      (∀ i, first ≤ i → i < res → comp (a i) pivot = true) →
      (∀ i, res ≤ i → i < it → comp (a i) pivot = false) →
      res ≤ (partitionLoop comp pivot k a res it).2 ∧
      (partitionLoop comp pivot k a res it).2 ≤ it + k ∧
      (∀ i, first ≤ i → i < (partitionLoop comp pivot k a res it).2 →
        comp ((partitionLoop comp pivot k a res it).1 i) pivot = true) ∧
      (∀ i, (partitionLoop comp pivot k a res it).2 ≤ i → i < it + k →
        comp ((partitionLoop comp pivot k a res it).1 i) pivot = false) ∧
      RangePerm a (partitionLoop comp pivot k a res it).1 first (it + k) := by
  intro k
  induction k with
  | zero =>
    intro a res it h1 h2 hlt hge
    exact ⟨le_refl _, h2, hlt, hge, RangePerm.refl _ _ _⟩
  | succ k ih =>
    intro a res it h1 h2 hlt hge
    have hsw : RangePerm a (swap a res it) first (it + (k + 1)) :=
      swap_rangePerm a ⟨h1, by omega⟩ ⟨by omega, by omega⟩
    simp only [partitionLoop]
    cases hr : comp (a it) pivot with
    | true =>
      have key := ih (swap a res it) (res + 1) (it + 1) (by omega) (by omega)
        (by
          intro i hi1 hi2
          by_cases hir : i = res
          · subst hir; rw [swap_apply_left]; exact hr
          · rw [swap_apply_of_ne a hir (by omega)]; exact hlt i hi1 (by omega))
        (by
          intro i hi1 hi2
          by_cases hii : i = it
          · subst hii; rw [swap_apply_right]; exact hge res (le_refl _) (by omega)
          · rw [swap_apply_of_ne a (by omega) hii]; exact hge i (by omega) (by omega))
      simp only [Bool.toNat_true]
      have e : it + 1 + k = it + (k + 1) := by omega
      rw [e] at key
      exact ⟨by omega, key.2.1, key.2.2.1, key.2.2.2.1, hsw.trans key.2.2.2.2⟩
    | false =>
      have key := ih (swap a res it) res (it + 1) h1 (by omega)
        (by
          intro i hi1 hi2
          rw [swap_apply_of_ne a (by omega) (by omega)]; exact hlt i hi1 hi2)
        (by
          intro i hi1 hi2
          by_cases hir : i = res
          · subst hir; rw [swap_apply_left]; exact hr
          · by_cases hii : i = it
            · subst hii; rw [swap_apply_right]; exact hge res (le_refl _) (by omega)
            · rw [swap_apply_of_ne a hir hii]; exact hge i hi1 (by omega))
      simp only [Bool.toNat_false, Nat.add_zero]
      have e : it + 1 + k = it + (k + 1) := by omega
      rw [e] at key
      exact ⟨key.1, key.2.1, key.2.2.1, key.2.2.2.1, hsw.trans key.2.2.2.2⟩

theorem partition_spec (comp : α → α → Bool) (pivot : α) (a : Nat → α) {first last : Nat}
    (h : first ≤ last) :
    first ≤ (partition comp pivot a first last).2 ∧
    (partition comp pivot a first last).2 ≤ last ∧
    (∀ i, first ≤ i → i < (partition comp pivot a first last).2 →
      comp ((partition comp pivot a first last).1 i) pivot = true) ∧
    (∀ i, (partition comp pivot a first last).2 ≤ i → i < last →
      comp ((partition comp pivot a first last).1 i) pivot = false) ∧
    RangePerm a (partition comp pivot a first last).1 first last := by
  have key := partitionLoop_spec comp pivot first (last - first) a first first (le_refl _)
    (le_refl _) (fun i h1 h2 => absurd h1 (by omega)) (fun i h1 h2 => absurd h1 (by omega))
  have e : first + (last - first) = last := by omega
  rw [e] at key
  exact key

theorem partitionRevLoop_eq (comp : α → α → Bool) (pivot : α) :
    ∀ (k : Nat) (a : Nat → α) (res it : Nat),
      partitionRevLoop comp pivot k a res it =
        partitionLoop (fun x p => !comp p x) pivot k a res it := by
  intro k
  induction k with
  | zero => intro a res it; rfl
  | succ k ih => intro a res it; simp only [partitionRevLoop, partitionLoop, ih]

theorem partition_rev_spec (comp : α → α → Bool) (pivot : α) (a : Nat → α) {first last : Nat}
    (h : first ≤ last) :
    first ≤ (partition_rev comp pivot a first last).2 ∧
    (partition_rev comp pivot a first last).2 ≤ last ∧
    (∀ i, first ≤ i → i < (partition_rev comp pivot a first last).2 →
      comp pivot ((partition_rev comp pivot a first last).1 i) = false) ∧
    (∀ i, (partition_rev comp pivot a first last).2 ≤ i → i < last →
      comp pivot ((partition_rev comp pivot a first last).1 i) = true) ∧
    RangePerm a (partition_rev comp pivot a first last).1 first last := by
  have key := partition_spec (fun x p => !comp p x) pivot a h
  have e : partition_rev comp pivot a first last =
      partition (fun x p => !comp p x) pivot a first last := by
    simp only [partition_rev, partition, partitionRevLoop_eq]
  rw [e]
  simpa using key

/-! ## Comparators and the small-range sorter -/

theorem StrictWeakOrder.asymm {comp : α → α → Bool} (h : StrictWeakOrder comp) (x y : α)
    (hxy : comp x y = true) : comp y x = false := by
  cases hyx : comp y x with
  | false => rfl
  | true =>
    have := h.trans x y x hxy hyx
    rw [h.irrefl x] at this
    exact absurd this (by simp)

theorem StrictWeakOrder.neg_trans {comp : α → α → Bool} (h : StrictWeakOrder comp) (x y z : α)
    (hxy : comp x y = false) (hyz : comp y z = false) : comp x z = false := by
  cases hxz : comp x z with
  | false => rfl
  | true =>
    cases hyx : comp y x with
    | true =>
      have := h.trans y x z hyx hxz
      rw [hyz] at this
      exact absurd this (by simp)
    | false =>
      cases hzy : comp z y with
      | true =>
        have := h.trans x z y hxz hzy
        rw [hxy] at this
        exact absurd this (by simp)
      | false =>
        have := (h.equiv_trans x y z hxy hyx hyz hzy).1
        rw [hxz] at this
        exact absurd this (by simp)

theorem StrictWeakOrder.transNegTrans {comp : α → α → Bool} (h : StrictWeakOrder comp) :
    TransNegTrans comp :=
  ⟨h.trans, h.neg_trans⟩

/-- The default order on the natural numbers is a strict weak order. -/
theorem Less_strictWeakOrder : StrictWeakOrder Less := by
  refine ⟨?_, ?_, ?_⟩
  · intro x; simp [Less]
  · intro x y z; simp only [Less, decide_eq_true_eq]; omega
  · intro x y z; simp only [Less, decide_eq_false_iff_not]; omega

/-- Under `TransNegTrans`, the case in which the inner loop of `BubbleSort2`
would store `z` twice never arises. -/
theorem TransNegTrans.no_loss {comp : α → α → Bool} (h : TransNegTrans comp) (x y z : α)
    (hxy : comp x y = true ∨ comp y x = false) (hzx : comp z x = true) : comp z y = true := by
  cases hzy : comp z y with
  | true => rfl
  | false =>
    rcases hxy with hxy | hyx
    · have := h.trans z x y hzx hxy
      rw [hzy] at this
      exact absurd this (by simp)
    · have := h.neg_trans z y x hzy hyx
      rw [hzx] at this
      exact absurd this (by simp)

/-- The inner loop of `BubbleSort2` writes only the slots
`first + j - 2, ..., first + j + k - 3`. -/
theorem BubbleSort2Inner_frame (comp : α → α → Bool) (first : Nat) :
    ∀ (k j : Nat) (a : Nat → α) (x y : α) (i : Nat),
      i < first + j - 2 ∨ first + j + k - 2 ≤ i → 2 ≤ j →
      (BubbleSort2Inner comp first k j a x y).1 i = a i := by
  intro k
  induction k with
  | zero => intro j a x y i _ _; rfl
  | succ k ih =>
    intro j a x y i hi hj
    simp only [BubbleSort2Inner]
    rw [ih _ _ _ _ i (by omega) (by omega), Function.update_noteq (by omega)]

/-- One iteration of the inner loop of `BubbleSort2` on the values: the value
stored and the two candidates kept are the value read and the two previous
candidates. -/
theorem BubbleSort2_step_perm {comp : α → α → Bool} (hc : TransNegTrans comp) (x y z : α)
    (hxy : comp x y = true ∨ comp y x = false) :
    [if comp z x then z else x,
      if comp z x then x else (if comp z y then z else y),
      if comp z y then y else z].Perm [z, x, y] ∧
    (comp (if comp z x then x else (if comp z y then z else y))
        (if comp z y then y else z) = true ∨
      comp (if comp z y then y else z)
        (if comp z x then x else (if comp z y then z else y)) = false) := by
  cases hzx : comp z x with
  | true =>
    have hzy := hc.no_loss x y z hxy hzx
    simp only [hzy, if_true]
    exact ⟨List.Perm.refl _, hxy⟩
  | false =>
    cases hzy : comp z y with
    | true =>
      simp only [if_true, Bool.false_eq_true, if_false]
      exact ⟨List.Perm.swap _ _ _, Or.inl hzy⟩
    | false =>
      simp only [Bool.false_eq_true, if_false]
      refine ⟨?_, Or.inr hzy⟩
      exact ((List.Perm.swap z y []).cons x).trans (List.Perm.swap z x [y])

theorem BubbleSort2Inner_perm {comp : α → α → Bool} (hc : TransNegTrans comp) (first : Nat) :
    ∀ (k j : Nat) (a : Nat → α) (x y : α), 2 ≤ j →
      (comp x y = true ∨ comp y x = false) →
      ((BubbleSort2Inner comp first k j a x y).2.1 :: (BubbleSort2Inner comp first k j a x y).2.2 ::
        window (BubbleSort2Inner comp first k j a x y).1 (first + j - 2) (first + j + k - 2)).Perm
        (x :: y :: window a (first + j) (first + j + k)) ∧
      (comp (BubbleSort2Inner comp first k j a x y).2.1
          (BubbleSort2Inner comp first k j a x y).2.2 = true ∨
        comp (BubbleSort2Inner comp first k j a x y).2.2
          (BubbleSort2Inner comp first k j a x y).2.1 = false) := by
  intro k
  induction k with
  | zero =>
    intro j a x y hj hxy
    simp only [BubbleSort2Inner]
    rw [window_empty a (show first + j + 0 - 2 ≤ first + j - 2 by omega),
      window_empty a (show first + j + 0 ≤ first + j by omega)]
    exact ⟨List.Perm.refl _, hxy⟩
  | succ k ih =>
    intro j a x y hj hxy
    have hw : window a (first + j) (first + j + (k + 1)) =
        a (first + j) :: window a (first + j + 1) (first + j + (k + 1)) :=
      window_succ a (by omega)
    rw [hw]
    simp only [BubbleSort2Inner]
    generalize hz : a (first + j) = z
    obtain ⟨hp, hinv⟩ := BubbleSort2_step_perm hc x y z hxy
    generalize hv : (if comp z x then z else x) = v at hp ⊢
    generalize hx1 : (if comp z x then x else (if comp z y then z else y)) = x1 at hp hinv ⊢
    generalize hy1 : (if comp z y then y else z) = y1 at hp hinv ⊢
    obtain ⟨key, kinv⟩ := ih (j + 1) (Function.update a (first + j - 2) v) x1 y1 (by omega) hinv
    refine ⟨?_, kinv⟩
    have hfr := BubbleSort2Inner_frame comp first k (j + 1)
      (Function.update a (first + j - 2) v) x1 y1 (first + j - 2) (Or.inl (by omega)) (by omega)
    rw [Function.update_same] at hfr
    have hw2 : window (BubbleSort2Inner comp first k (j + 1)
        (Function.update a (first + j - 2) v) x1 y1).1 (first + j - 2) (first + j + (k + 1) - 2) =
        v :: window (BubbleSort2Inner comp first k (j + 1)
          (Function.update a (first + j - 2) v) x1 y1).1 (first + (j + 1) - 2)
          (first + (j + 1) + k - 2) := by
      rw [window_succ _ (show first + j - 2 < first + j + (k + 1) - 2 by omega), hfr]
      congr 2 <;> omega
    have hw3 : window (Function.update a (first + j - 2) v) (first + (j + 1))
        (first + (j + 1) + k) = window a (first + j + 1) (first + j + (k + 1)) := by
      have e : first + (j + 1) + k = first + j + (k + 1) := by omega
      rw [e]
      exact window_congr (fun i h1 _ => Function.update_noteq (by omega) _ _)
    rw [hw3] at key
    rw [hw2]
    generalize window (BubbleSort2Inner comp first k (j + 1)
        (Function.update a (first + j - 2) v) x1 y1).1 (first + (j + 1) - 2)
          (first + (j + 1) + k - 2) = W' at key ⊢
    generalize window a (first + j + 1) (first + j + (k + 1)) = W at key ⊢
    generalize (BubbleSort2Inner comp first k (j + 1)
        (Function.update a (first + j - 2) v) x1 y1).2.1 = X' at key ⊢
    generalize (BubbleSort2Inner comp first k (j + 1)
        (Function.update a (first + j - 2) v) x1 y1).2.2 = Y' at key ⊢
    have s1 : (X' :: Y' :: v :: W').Perm (v :: X' :: Y' :: W') :=
      ((List.Perm.swap v Y' W').cons X').trans (List.Perm.swap v X' (Y' :: W'))
    have s2 : (v :: x1 :: y1 :: W).Perm (z :: x :: y :: W) := hp.append_right W
    have s3 : (z :: x :: y :: W).Perm (x :: y :: z :: W) :=
      (List.Perm.swap x z (y :: W)).trans ((List.Perm.swap y z W).cons x)
    exact s1.trans ((key.cons v).trans (s2.trans s3))

/-- One pass of the outer loop of `BubbleSort2`, with the pairs projected. -/
theorem BubbleSort2Loop_step (comp : α → α → Bool) (first i : Nat) (a : Nat → α) :
    BubbleSort2Loop comp first (i + 2) a =
      BubbleSort2Loop comp first i
        (Function.update
          (Function.update
            (BubbleSort2Inner comp first i 2 a
              (if comp (a (first + 1)) (a first) then a (first + 1) else a first)
              (if comp (a (first + 1)) (a first) then a first else a (first + 1))).1
            (first + i)
            (BubbleSort2Inner comp first i 2 a
              (if comp (a (first + 1)) (a first) then a (first + 1) else a first)
              (if comp (a (first + 1)) (a first) then a first else a (first + 1))).2.1)
          (first + i + 1)
          (BubbleSort2Inner comp first i 2 a
            (if comp (a (first + 1)) (a first) then a (first + 1) else a first)
            (if comp (a (first + 1)) (a first) then a first else a (first + 1))).2.2) := by
  have e1 : first + (i + 2) - 2 = first + i := by omega
  have e2 : first + (i + 2) - 1 = first + i + 1 := by omega
  cases h : comp (a (first + 1)) (a first) <;>
    simp only [BubbleSort2Loop, Nat.add_zero, h, if_true, Bool.false_eq_true, if_false, e1, e2]

theorem BubbleSort2Loop_rangePerm {comp : α → α → Bool} (hc : TransNegTrans comp) (first : Nat) :
    ∀ (i : Nat) (a : Nat → α), RangePerm a (BubbleSort2Loop comp first i a) first (first + i) := by
  intro i
  induction i using Nat.strong_induction_on with
  | _ i ih =>
    intro a
    match i, ih with
    | 0, _ => exact RangePerm.refl _ _ _
    | 1, _ => exact RangePerm.refl _ _ _
    | i + 2, ih =>
      rw [BubbleSort2Loop_step]
      generalize hx : (if comp (a (first + 1)) (a first) then a (first + 1) else a first) = x
      generalize hy : (if comp (a (first + 1)) (a first) then a first else a (first + 1)) = y
      have hinv : comp x y = true ∨ comp y x = false := by
        subst hx; subst hy
        cases h : comp (a (first + 1)) (a first)
        · right; simp [h]
        · left; simp [h]
      have hxy : [x, y].Perm [a first, a (first + 1)] := by
        subst hx; subst hy
        cases h : comp (a (first + 1)) (a first)
        · simp
        · simp only [if_true]; exact List.Perm.swap _ _ _
      obtain ⟨key, -⟩ := BubbleSort2Inner_perm hc first i 2 a x y (le_refl _) hinv
      have hfr := BubbleSort2Inner_frame comp first i 2 a x y
      generalize BubbleSort2Inner comp first i 2 a x y = r at key hfr ⊢
      obtain ⟨a1, x1, y1⟩ := r
      simp only at key hfr ⊢
      have e1 : first + 2 - 2 = first := by omega
      have e2 : first + 2 + i - 2 = first + i := by omega
      rw [e1, e2] at key
      refine RangePerm.trans ?_ ((ih i (by omega) _).mono (le_refl _) (by omega))
      constructor
      · intro k hk
        rw [Function.update_noteq (by omega), Function.update_noteq (by omega)]
        exact hfr k (by omega) (le_refl _)
      · have w1 : window (Function.update (Function.update a1 (first + i) x1) (first + i + 1) y1)
            first (first + (i + 2)) = window a1 first (first + i) ++ [x1, y1] := by
          rw [show first + (i + 2) = first + i + 1 + 1 by omega,
            window_last _ (show first ≤ first + i + 1 by omega),
            window_last _ (show first ≤ first + i by omega)]
          rw [Function.update_same, Function.update_noteq (by omega), Function.update_same,
            List.append_assoc]
          congr 1
          exact window_congr (fun k _ h2 => by
            rw [Function.update_noteq (by omega), Function.update_noteq (by omega)])
        have w2 : window a first (first + (i + 2)) =
            a first :: a (first + 1) :: window a (first + 2) (first + 2 + i) := by
          rw [window_succ a (show first < first + (i + 2) by omega),
            window_succ a (show first + 1 < first + (i + 2) by omega)]
          congr 3; omega
        rw [w1, w2]
        have s1 : (window a1 first (first + i) ++ [x1, y1]).Perm
            (x1 :: y1 :: window a1 first (first + i)) := List.perm_append_comm
        exact s1.trans (key.trans (hxy.append_right _))

theorem BubbleSort2_rangePerm {comp : α → α → Bool} (hc : TransNegTrans comp) (a : Nat → α)
    {first last : Nat} (h : first ≤ last) :
    RangePerm a (BubbleSort2 comp a first last) first last := by
  have key := BubbleSort2Loop_rangePerm hc first (last - first) a
  have e : first + (last - first) = last := by omega
  rw [e] at key
  exact key

/-- One iteration of the inner loop of `BubbleSort2` on the values, under a
strict weak order: the value stored is not greater than the smaller candidate
kept, the candidates stay ordered, and the smaller candidate does not
decrease. -/
theorem BubbleSort2_step_le {comp : α → α → Bool} (hs : StrictWeakOrder comp) (x y z : α)
    (hxy : comp y x = false) :
    comp (if comp z x then x else (if comp z y then z else y))
        (if comp z x then z else x) = false ∧
    comp (if comp z y then y else z)
        (if comp z x then x else (if comp z y then z else y)) = false ∧
    comp (if comp z x then x else (if comp z y then z else y)) x = false := by
  cases hzx : comp z x with
  | true =>
    have hzy := hs.transNegTrans.no_loss x y z (Or.inr hxy) hzx
    simp only [hzy, if_true]
    exact ⟨hs.asymm z x hzx, hxy, hs.irrefl x⟩
  | false =>
    cases hzy : comp z y with
    | true =>
      simp only [if_true, Bool.false_eq_true, if_false]
      exact ⟨hzx, hs.asymm z y hzy, hzx⟩
    | false =>
      simp only [Bool.false_eq_true, if_false]
      exact ⟨hxy, hzy, hxy⟩

theorem BubbleSort2Inner_le {comp : α → α → Bool} (hs : StrictWeakOrder comp) (first : Nat) :
    ∀ (k j : Nat) (a : Nat → α) (x y : α), 2 ≤ j → comp y x = false →
      comp (BubbleSort2Inner comp first k j a x y).2.1 x = false ∧
      comp (BubbleSort2Inner comp first k j a x y).2.2
        (BubbleSort2Inner comp first k j a x y).2.1 = false ∧
      ∀ i, first + j - 2 ≤ i → i < first + j + k - 2 →
        comp (BubbleSort2Inner comp first k j a x y).2.1
          ((BubbleSort2Inner comp first k j a x y).1 i) = false := by
  intro k
  induction k with
  | zero =>
    intro j a x y hj hxy
    simp only [BubbleSort2Inner]
    exact ⟨hs.irrefl x, hxy, fun i h1 h2 => absurd h2 (by omega)⟩
  | succ k ih =>
    intro j a x y hj hxy
    simp only [BubbleSort2Inner]
    generalize hz : a (first + j) = z
    obtain ⟨h1, h2, h3⟩ := BubbleSort2_step_le hs x y z hxy
    generalize hv : (if comp z x then z else x) = v at h1 ⊢
    generalize hx1 : (if comp z x then x else (if comp z y then z else y)) = x1 at h1 h2 h3 ⊢
    generalize hy1 : (if comp z y then y else z) = y1 at h2 ⊢
    obtain ⟨k1, k2, k3⟩ := ih (j + 1) (Function.update a (first + j - 2) v) x1 y1 (by omega) h2
    have hfr := BubbleSort2Inner_frame comp first k (j + 1)
      (Function.update a (first + j - 2) v) x1 y1 (first + j - 2) (Or.inl (by omega)) (by omega)
    rw [Function.update_same] at hfr
    refine ⟨hs.neg_trans _ _ _ k1 h3, k2, ?_⟩
    intro i hi1 hi2
    by_cases hi : i = first + j - 2
    · rw [hi, hfr]
      exact hs.neg_trans _ _ _ k1 h1
    · exact k3 i (by omega) (by omega)

theorem BubbleSort2Loop_sorted {comp : α → α → Bool} (hs : StrictWeakOrder comp) (first : Nat) :
    ∀ (i : Nat) (a : Nat → α),
      (window (BubbleSort2Loop comp first i a) first (first + i)).Pairwise (NotLess comp) := by
  intro i
  induction i using Nat.strong_induction_on with
  | _ i ih =>
    intro a
    match i, ih with
    | 0, _ => simp [window]
    | 1, _ => simp [window]
    | i + 2, ih =>
      have hperm := BubbleSort2Loop_rangePerm hs.transNegTrans first
      rw [BubbleSort2Loop_step]
      generalize hx : (if comp (a (first + 1)) (a first) then a (first + 1) else a first) = x
      generalize hy : (if comp (a (first + 1)) (a first) then a first else a (first + 1)) = y
      have hxy : comp y x = false := by
        subst hx; subst hy
        cases h : comp (a (first + 1)) (a first)
        · simp [h]
        · simp only [if_true]; exact hs.asymm _ _ h
      obtain ⟨-, k2, k3⟩ := BubbleSort2Inner_le hs first i 2 a x y (le_refl _) hxy
      generalize BubbleSort2Inner comp first i 2 a x y = r at k2 k3 ⊢
      obtain ⟨a1, x1, y1⟩ := r
      simp only at k2 k3 ⊢
      generalize ha3 : Function.update (Function.update a1 (first + i) x1) (first + i + 1) y1 = a3
      have hp := hperm i a3
      have hsorted := ih i (by omega) a3
      have e1 : BubbleSort2Loop comp first i a3 (first + i) = x1 := by
        rw [hp.1 _ (Or.inr (le_refl _)), ← ha3, Function.update_noteq (by omega),
          Function.update_same]
      have e2 : BubbleSort2Loop comp first i a3 (first + i + 1) = y1 := by
        rw [hp.1 _ (Or.inr (by omega)), ← ha3, Function.update_same]
      rw [show first + (i + 2) = first + i + 1 + 1 by omega,
        window_last _ (show first ≤ first + i + 1 by omega),
        window_last _ (show first ≤ first + i by omega), e1, e2, List.append_assoc]
      rw [List.pairwise_append]
      refine ⟨hsorted, ?_, ?_⟩
      · simp [NotLess, k2]
      · intro u hu v hv
        have hu1 : comp x1 u = false := by
          have hu' := hp.2.mem_iff.mp hu
          rw [mem_window] at hu'
          obtain ⟨m, hm1, hm2, rfl⟩ := hu'
          rw [← ha3, Function.update_noteq (by omega), Function.update_noteq (by omega)]
          exact k3 m (by omega) (by omega)
        simp only [List.singleton_append, List.mem_cons, List.mem_singleton, List.not_mem_nil,
          or_false] at hv
        rcases hv with rfl | rfl
        · exact hu1
        · exact hs.neg_trans _ _ _ k2 hu1

theorem BubbleSort2_sorted {comp : α → α → Bool} (hs : StrictWeakOrder comp) (a : Nat → α)
    {first last : Nat} (h : first ≤ last) :
    (window (BubbleSort2 comp a first last) first last).Pairwise (NotLess comp) := by
  have key := BubbleSort2Loop_sorted hs first (last - first) a
  have e : first + (last - first) = last := by omega
  rw [e] at key
  exact key

/-! ## The driver loop -/

/-- A conditional swap of two members of a list yields two members of it. -/
theorem condSwap_mem (S : List α) (c : Bool) (p q : α) (hp : p ∈ S) (hq : q ∈ S) :
    (if c = true then (p, q) else (q, p)).1 ∈ S ∧ (if c = true then (p, q) else (q, p)).2 ∈ S := by
  cases c
  · exact ⟨hq, hp⟩
  · exact ⟨hp, hq⟩

/-- The network of `median5` returns one of its five inputs. -/
theorem median5Net_mem (comp : α → α → Bool) (e0 e1 e2 e3 e4 : α) :
    median5Net comp e0 e1 e2 e3 e4 ∈ [e0, e1, e2, e3, e4] := by
  unfold median5Net
  simp only
  have s1 := condSwap_mem [e0, e1, e2, e3, e4] (comp e1 e0) e0 e1 (by simp) (by simp)
  generalize (if comp e1 e0 = true then (e0, e1) else (e1, e0)) = P1 at s1 ⊢
  have s2 := condSwap_mem [e0, e1, e2, e3, e4] (comp e4 e3) e3 e4 (by simp) (by simp)
  generalize (if comp e4 e3 = true then (e3, e4) else (e4, e3)) = P2 at s2 ⊢
  have s3 := condSwap_mem [e0, e1, e2, e3, e4] (comp P2.2 P1.2) P1.2 P2.2 s1.2 s2.2
  generalize (if comp P2.2 P1.2 = true then (P1.2, P2.2) else (P2.2, P1.2)) = P3 at s3 ⊢
  have s4 := condSwap_mem [e0, e1, e2, e3, e4] (comp P1.1 P2.1) P2.1 P1.1 s2.1 s1.1
  generalize (if comp P1.1 P2.1 = true then (P2.1, P1.1) else (P1.1, P2.1)) = P4 at s4 ⊢
  have s5 := condSwap_mem [e0, e1, e2, e3, e4] (comp e2 P4.1) P4.1 e2 s4.1 (by simp)
  generalize (if comp e2 P4.1 = true then (P4.1, e2) else (e2, P4.1)) = P5 at s5 ⊢
  have s6 := condSwap_mem [e0, e1, e2, e3, e4] (comp P3.1 P5.1) P3.1 P5.1 s3.1 s5.1
  generalize (if comp P3.1 P5.1 = true then (P3.1, P5.1) else (P5.1, P3.1)) = P6 at s6 ⊢
  have s7 := condSwap_mem [e0, e1, e2, e3, e4] (comp P6.1 P5.2) P5.2 P6.1 s5.2 s6.1
  generalize (if comp P6.1 P5.2 = true then (P5.2, P6.1) else (P6.1, P5.2)) = P7 at s7 ⊢
  exact s7.1

/-- The pivot is an element of the range. -/
theorem median5_mem_window (comp : α → α → Bool) (a : Nat → α) {first last : Nat}
    (h : first < last) : median5 comp a first last ∈ window a first last := by
  have key := median5Net_mem comp (a (first + ((last - first) >>> 2) * 0))
    (a (first + ((last - first) >>> 2) * 1)) (a (first + ((last - first) >>> 2) * 2))
    (a (first + ((last - first) >>> 2) * 3)) (a (first + (last - first - 1)))
  have hd : (last - first) >>> 2 = (last - first) / 4 := by
    rw [Nat.shiftRight_eq_div_pow]
  simp only [List.mem_cons, List.mem_singleton, List.not_mem_nil, or_false] at key
  unfold median5
  simp only
  rw [mem_window]
  rcases key with h0 | h0 | h0 | h0 | h0 <;> rw [h0]
  · exact ⟨_, by omega, by rw [hd]; omega, rfl⟩
  · exact ⟨_, by omega, by rw [hd]; omega, rfl⟩
  · exact ⟨_, by omega, by rw [hd]; omega, rfl⟩
  · exact ⟨_, by omega, by rw [hd]; omega, rfl⟩
  · exact ⟨_, by omega, by omega, rfl⟩

/-- The body of the driver loop, with the pairs projected. -/
theorem sortStep_eq (comp : α → α → Bool) (a : Nat → α) (first last : Nat) :
    sortStep comp a first last =
      if (partition comp (median5 comp a first last) a first last).2 - first ≤
          (last - first) >>> 3 then
        ((partition_rev comp (median5 comp a first last)
            (partition comp (median5 comp a first last) a first last).1
            (partition comp (median5 comp a first last) a first last).2 last).1,
          (partition comp (median5 comp a first last) a first last).2,
          (partition_rev comp (median5 comp a first last)
            (partition comp (median5 comp a first last) a first last).1
            (partition comp (median5 comp a first last) a first last).2 last).2)
      else
        ((partition comp (median5 comp a first last) a first last).1,
          (partition comp (median5 comp a first last) a first last).2,
          (partition comp (median5 comp a first last) a first last).2) := by
  unfold sortStep
  simp only
  by_cases h : (partition comp (median5 comp a first last) a first last).2 - first ≤
      (last - first) >>> 3
  · simp [h]
  · simp [h]

/-- What one iteration of the driver loop establishes, for every comparator. -/
theorem sortStep_spec (comp : α → α → Bool) (a : Nat → α) {first last : Nat}
    (h : first < last) :
    first ≤ (sortStep comp a first last).2.1 ∧
    (sortStep comp a first last).2.1 ≤ (sortStep comp a first last).2.2 ∧
    (sortStep comp a first last).2.2 ≤ last ∧
    RangePerm a (sortStep comp a first last).1 first last ∧
    (∀ x ∈ window (sortStep comp a first last).1 first (sortStep comp a first last).2.1,
      comp x (median5 comp a first last) = true) ∧
    (∀ x ∈ window (sortStep comp a first last).1 (sortStep comp a first last).2.1 last,
      comp x (median5 comp a first last) = false) ∧
    (∀ x ∈ window (sortStep comp a first last).1 (sortStep comp a first last).2.1
        (sortStep comp a first last).2.2,
      comp (median5 comp a first last) x = false) ∧
    (((sortStep comp a first last).2.2 = (sortStep comp a first last).2.1 ∧
        (last - first) >>> 3 < (sortStep comp a first last).2.1 - first) ∨
      ∀ x ∈ window (sortStep comp a first last).1 (sortStep comp a first last).2.2 last,
        comp (median5 comp a first last) x = true) := by
  rw [sortStep_eq]
  generalize median5 comp a first last = pivot
  obtain ⟨p1, p2, p3, p4, p5⟩ := partition_spec comp pivot a (Nat.le_of_lt h)
  generalize partition comp pivot a first last = P at p1 p2 p3 p4 p5 ⊢
  obtain ⟨a1, mid⟩ := P
  simp only at p1 p2 p3 p4 p5 ⊢
  have hL : ∀ x ∈ window a1 first mid, comp x pivot = true := by
    intro x hx
    rw [mem_window] at hx
    obtain ⟨i, h1, h2, rfl⟩ := hx
    exact p3 i h1 h2
  have hR : ∀ x ∈ window a1 mid last, comp x pivot = false := by
    intro x hx
    rw [mem_window] at hx
    obtain ⟨i, h1, h2, rfl⟩ := hx
    exact p4 i h1 h2
  split_ifs with hskew
  · obtain ⟨q1, q2, q3, q4, q5⟩ := partition_rev_spec comp pivot a1 p2
    generalize partition_rev comp pivot a1 mid last = Q at q1 q2 q3 q4 q5 ⊢
    obtain ⟨a2, midr⟩ := Q
    simp only at q1 q2 q3 q4 q5 ⊢
    refine ⟨p1, q1, q2, p5.trans (q5.mono p1 (le_refl _)), ?_, ?_, ?_, Or.inr ?_⟩
    · intro x hx
      rw [window_congr (fun i _ h2 => q5.1 i (Or.inl h2))] at hx
      exact hL x hx
    · intro x hx
      exact hR x (q5.2.mem_iff.mp hx)
    · intro x hx
      rw [mem_window] at hx
      obtain ⟨i, h1, h2, rfl⟩ := hx
      exact q3 i h1 h2
    · intro x hx
      rw [mem_window] at hx
      obtain ⟨i, h1, h2, rfl⟩ := hx
      exact q4 i h1 h2
  · refine ⟨p1, le_refl _, p2, p5, hL, hR, ?_, Or.inl ⟨rfl, Nat.not_le.mp hskew⟩⟩
    intro x hx
    rw [window_empty _ (le_refl _)] at hx
    exact absurd hx (List.not_mem_nil _)

theorem sort_zero (comp : α → α → Bool) (a : Nat → α) (first last : Nat) :
    sort comp 0 a first last = none := rfl

theorem sort_small (comp : α → α → Bool) (fuel : Nat) (a : Nat → α) {first last : Nat}
    (h : last - first ≤ kSmallSortThreshold) :
    sort comp (fuel + 1) a first last = some (BubbleSort2 comp a first last) := by
  rw [sort, if_neg (Nat.not_lt.mpr h)]

theorem sort_large (comp : α → α → Bool) (fuel : Nat) (a : Nat → α) {first last : Nat}
    (h : kSmallSortThreshold < last - first) :
    sort comp (fuel + 1) a first last =
      if (sortStep comp a first last).2.1 - first ≤ last - (sortStep comp a first last).2.2 then
        (sort comp fuel (sortStep comp a first last).1 first (sortStep comp a first last).2.1).bind
          fun a3 => sort comp fuel a3 (sortStep comp a first last).2.2 last
      else
        (sort comp fuel (sortStep comp a first last).1 (sortStep comp a first last).2.2 last).bind
          fun a3 => sort comp fuel a3 first (sortStep comp a first last).2.1 := by
  rw [sort, if_pos h]

/-- The pivot is still in the range after the partitioning of one iteration. -/
theorem pivot_mem_sortStep (comp : α → α → Bool) (a : Nat → α) {first last : Nat}
    (h : first < last) :
    median5 comp a first last ∈ window (sortStep comp a first last).1 first last :=
  (sortStep_spec comp a h).2.2.2.1.2.mem_iff.mpr (median5_mem_window comp a h)

/-- When the loop continues on `[midr, last)`, that range is strictly smaller
than `[first, last)`: this holds for every comparator. -/
theorem sortStep_left_progress (comp : α → α → Bool) (a : Nat → α) {first last : Nat}
    (h : first < last) : first < (sortStep comp a first last).2.2 := by
  obtain ⟨h1, h2, h3, h4, h5, h6, h7, h8⟩ := sortStep_spec comp a h
  have hp := pivot_mem_sortStep comp a h
  by_contra hc
  have e1 : (sortStep comp a first last).2.2 = first := by omega
  have e2 : (sortStep comp a first last).2.1 = first := by omega
  rw [e2] at h6
  have f1 := h6 _ hp
  rcases h8 with ⟨-, h8⟩ | h8
  · rw [e2] at h8; omega
  · rw [e1] at h8
    have f2 := h8 _ hp
    rw [f1] at f2
    exact absurd f2 (by simp)

/-- When the loop continues on `[first, mid)`, that range is strictly smaller
than `[first, last)` provided the pivot does not compare less than itself. -/
theorem sortStep_right_progress (comp : α → α → Bool) (a : Nat → α) {first last : Nat}
    (h : first < last)
    (hirr : comp (median5 comp a first last) (median5 comp a first last) = false) :
    (sortStep comp a first last).2.1 < last := by
  obtain ⟨h1, h2, h3, h4, h5, h6, h7, h8⟩ := sortStep_spec comp a h
  have hp := pivot_mem_sortStep comp a h
  by_contra hc
  have e2 : (sortStep comp a first last).2.1 = last := by omega
  rw [e2] at h5
  have f1 := h5 _ hp
  rw [hirr] at f1
  exact absurd f1 (by simp)

/-- With an irreflexive comparator, `sort` returns as soon as the fuel
exceeds the size of the range. -/
theorem sort_terminates {comp : α → α → Bool} (hirr : ∀ x, comp x x = false) :
    ∀ (fuel : Nat) (a : Nat → α) (first last : Nat), last - first < fuel →
      ∃ a', sort comp fuel a first last = some a' := by
  intro fuel
  induction fuel with
  | zero => intro a first last h; exact absurd h (Nat.not_lt_zero _)
  | succ fuel ih =>
    intro a first last h
    by_cases hs : last - first ≤ kSmallSortThreshold
    · exact ⟨_, sort_small comp fuel a hs⟩
    · have hl : kSmallSortThreshold < last - first := Nat.not_le.mp hs
      have hfl : first < last := by omega
      rw [sort_large comp fuel a hl]
      obtain ⟨h1, h2, h3, -⟩ := sortStep_spec comp a hfl
      have hp1 := sortStep_left_progress comp a hfl
      have hp2 := sortStep_right_progress comp a hfl (hirr _)
      generalize sortStep comp a first last = s at h1 h2 h3 hp1 hp2 ⊢
      obtain ⟨a2, mid, midr⟩ := s
      simp only at h1 h2 h3 hp1 hp2 ⊢
      split_ifs with hb
      · obtain ⟨a3, e3⟩ := ih a2 first mid (by omega)
        obtain ⟨a4, e4⟩ := ih a3 midr last (by omega)
        exact ⟨a4, by rw [e3, Option.some_bind, e4]⟩
      · obtain ⟨a3, e3⟩ := ih a2 midr last (by omega)
        obtain ⟨a4, e4⟩ := ih a3 first mid (by omega)
        exact ⟨a4, by rw [e3, Option.some_bind, e4]⟩

/-- More fuel does not change the result of `sort`. -/
theorem sort_fuel_succ (comp : α → α → Bool) :
    ∀ (fuel : Nat) (a : Nat → α) (first last : Nat) (a' : Nat → α),
      sort comp fuel a first last = some a' → sort comp (fuel + 1) a first last = some a' := by
  intro fuel
  induction fuel with
  | zero => intro a first last a' h; rw [sort_zero] at h; exact absurd h (by simp)
  | succ fuel ih =>
    intro a first last a' h
    by_cases hs : last - first ≤ kSmallSortThreshold
    · rw [sort_small comp fuel a hs] at h
      rw [sort_small comp (fuel + 1) a hs, h]
    · have hl : kSmallSortThreshold < last - first := Nat.not_le.mp hs
      rw [sort_large comp fuel a hl] at h
      rw [sort_large comp (fuel + 1) a hl]
      generalize sortStep comp a first last = s at h ⊢
      obtain ⟨a2, mid, midr⟩ := s
      simp only at h ⊢
      split_ifs at h ⊢ with hb
      · cases e3 : sort comp fuel a2 first mid with
        | none => rw [e3] at h; exact absurd h (by simp)
        | some a3 =>
          rw [e3, Option.some_bind] at h
          rw [ih _ _ _ _ e3, Option.some_bind, ih _ _ _ _ h]
      · cases e3 : sort comp fuel a2 midr last with
        | none => rw [e3] at h; exact absurd h (by simp)
        | some a3 =>
          rw [e3, Option.some_bind] at h
          rw [ih _ _ _ _ e3, Option.some_bind, ih _ _ _ _ h]

theorem sort_fuel_mono (comp : α → α → Bool) {fuel fuel' : Nat} (hf : fuel ≤ fuel')
    (a : Nat → α) (first last : Nat) (a' : Nat → α)
    (h : sort comp fuel a first last = some a') : sort comp fuel' a first last = some a' := by
  induction hf with
  | refl => exact h
  | step _ ih => exact sort_fuel_succ comp _ a first last a' ih

/-- For a comparator that is transitive and whose negation is transitive,
whatever `sort` returns is a rearrangement of the range. -/
theorem sort_rangePerm {comp : α → α → Bool} (hc : TransNegTrans comp) :
    ∀ (fuel : Nat) (a : Nat → α) (first last : Nat) (a' : Nat → α), first ≤ last →
      sort comp fuel a first last = some a' → RangePerm a a' first last := by
  intro fuel
  induction fuel with
  | zero => intro a first last a' _ h; rw [sort_zero] at h; exact absurd h (by simp)
  | succ fuel ih =>
    intro a first last a' hfl h
    by_cases hs : last - first ≤ kSmallSortThreshold
    · rw [sort_small comp fuel a hs] at h
      cases h
      exact BubbleSort2_rangePerm hc a hfl
    · have hl : kSmallSortThreshold < last - first := Nat.not_le.mp hs
      have hfl' : first < last := by omega
      rw [sort_large comp fuel a hl] at h
      obtain ⟨h1, h2, h3, h4, -⟩ := sortStep_spec comp a hfl'
      generalize sortStep comp a first last = s at h h1 h2 h3 h4
      obtain ⟨a2, mid, midr⟩ := s
      simp only at h h1 h2 h3 h4
      split_ifs at h with hb
      · cases e3 : sort comp fuel a2 first mid with
        | none => rw [e3] at h; exact absurd h (by simp)
        | some a3 =>
          rw [e3, Option.some_bind] at h
          exact h4.trans (((ih _ _ _ _ h1 e3).mono (le_refl _) (by omega)).trans
            ((ih _ _ _ _ h3 h).mono (by omega) (le_refl _)))
      · cases e3 : sort comp fuel a2 midr last with
        | none => rw [e3] at h; exact absurd h (by simp)
        | some a3 =>
          rw [e3, Option.some_bind] at h
          exact h4.trans (((ih _ _ _ _ h3 e3).mono (by omega) (le_refl _)).trans
            ((ih _ _ _ _ h1 h).mono (le_refl _) (by omega)))

/-- Three adjacent blocks, the outer two ordered, split by a pivot, form an
ordered list. -/
theorem sorted_glue {comp : α → α → Bool} (hs : StrictWeakOrder comp) (p : α) (L M R : List α)
    (hL : L.Pairwise (NotLess comp)) (hR : R.Pairwise (NotLess comp))
    (h1 : ∀ x ∈ L, comp x p = true)
    (h2M : ∀ x ∈ M, comp x p = false) (h3 : ∀ x ∈ M, comp p x = false)
    (h2R : ∀ x ∈ R, comp x p = false)
    (h4 : M = [] ∨ ∀ x ∈ R, comp p x = true) :
    (L ++ (M ++ R)).Pairwise (NotLess comp) := by
  have hLnot : ∀ u ∈ L, ∀ v, comp v p = false → comp v u = false := by
    intro u hu v hv
    cases hvu : comp v u with
    | false => rfl
    | true =>
      have := hs.trans v u p hvu (h1 u hu)
      rw [hv] at this
      exact absurd this (by simp)
  have hM : M.Pairwise (NotLess comp) := by
    rw [List.pairwise_iff_forall_sublist]
    intro u v huv
    have hu : u ∈ M := huv.subset (by simp)
    have hv : v ∈ M := huv.subset (by simp)
    exact (hs.equiv_trans v p u (h2M v hv) (h3 v hv) (h3 u hu) (h2M u hu)).1
  rw [List.pairwise_append]
  refine ⟨hL, ?_, ?_⟩
  · rw [List.pairwise_append]
    refine ⟨hM, hR, ?_⟩
    intro u hu v hv
    rcases h4 with h4 | h4
    · rw [h4] at hu; exact absurd hu (List.not_mem_nil _)
    · show comp v u = false
      cases hvu : comp v u with
      | false => rfl
      | true =>
        have := hs.trans p v u (h4 v hv) hvu
        rw [h3 u hu] at this
        exact absurd this (by simp)
  · intro u hu v hv
    rw [List.mem_append] at hv
    rcases hv with hv | hv
    · exact hLnot u hu v (h2M v hv)
    · exact hLnot u hu v (h2R v hv)

/-- The two sub-ranges sorted after one iteration of the driver loop, in
either order, leave the whole range ordered. -/
theorem sorted_of_step {comp : α → α → Bool} (hs : StrictWeakOrder comp) (p : α)
    (a2 a4 : Nat → α) {first mid midr last : Nat}
    (h1 : first ≤ mid) (h2 : mid ≤ midr) (h3 : midr ≤ last)
    (h5 : ∀ x ∈ window a2 first mid, comp x p = true)
    (h6 : ∀ x ∈ window a2 mid last, comp x p = false)
    (h7 : ∀ x ∈ window a2 mid midr, comp p x = false)
    (h8 : (midr = mid ∧ (last - first) >>> 3 < mid - first) ∨
      ∀ x ∈ window a2 midr last, comp p x = true)
    (pL : (window a4 first mid).Perm (window a2 first mid))
    (pM : window a4 mid midr = window a2 mid midr)
    (pR : (window a4 midr last).Perm (window a2 midr last))
    (sL : (window a4 first mid).Pairwise (NotLess comp))
    (sR : (window a4 midr last).Pairwise (NotLess comp)) :
    (window a4 first last).Pairwise (NotLess comp) := by
  rw [window_split a4 h1 (show mid ≤ last by omega), window_split a4 h2 h3]
  rw [window_split a2 h2 h3] at h6
  apply sorted_glue hs p _ _ _ sL sR
  · intro x hx; exact h5 x (pL.mem_iff.mp hx)
  · intro x hx; rw [pM] at hx; exact h6 x (List.mem_append_left _ hx)
  · intro x hx; rw [pM] at hx; exact h7 x hx
  · intro x hx; exact h6 x (List.mem_append_right _ (pR.mem_iff.mp hx))
  · rcases h8 with ⟨h8, -⟩ | h8
    · left; rw [h8]; exact window_empty a4 (le_refl _)
    · right; intro x hx; exact h8 x (pR.mem_iff.mp hx)

/-- For a strict weak order, whatever `sort` returns has the range ordered. -/
theorem sort_sorted {comp : α → α → Bool} (hs : StrictWeakOrder comp) :
    ∀ (fuel : Nat) (a : Nat → α) (first last : Nat) (a' : Nat → α), first ≤ last →
      sort comp fuel a first last = some a' →
      (window a' first last).Pairwise (NotLess comp) := by
  intro fuel
  induction fuel with
  | zero => intro a first last a' _ h; rw [sort_zero] at h; exact absurd h (by simp)
  | succ fuel ih =>
    intro a first last a' hfl h
    by_cases hsm : last - first ≤ kSmallSortThreshold
    · rw [sort_small comp fuel a hsm] at h
      cases h
      exact BubbleSort2_sorted hs a hfl
    · have hl : kSmallSortThreshold < last - first := Nat.not_le.mp hsm
      have hfl' : first < last := by omega
      rw [sort_large comp fuel a hl] at h
      obtain ⟨h1, h2, h3, h4, h5, h6, h7, h8⟩ := sortStep_spec comp a hfl'
      generalize median5 comp a first last = p at h5 h6 h7 h8
      generalize sortStep comp a first last = s at h h1 h2 h3 h4 h5 h6 h7 h8
      obtain ⟨a2, mid, midr⟩ := s
      simp only at h h1 h2 h3 h4 h5 h6 h7 h8
      split_ifs at h with hb
      · cases e3 : sort comp fuel a2 first mid with
        | none => rw [e3] at h; exact absurd h (by simp)
        | some a3 =>
          rw [e3, Option.some_bind] at h
          have r1 := sort_rangePerm hs.transNegTrans fuel _ _ _ _ h1 e3
          have r2 := sort_rangePerm hs.transNegTrans fuel _ _ _ _ h3 h
          have s1 := ih _ _ _ _ h1 e3
          have s2 := ih _ _ _ _ h3 h
          have c1 : window a' first mid = window a3 first mid :=
            window_congr (fun i _ hi => r2.1 i (Or.inl (by omega)))
          have c2 : window a' mid midr = window a2 mid midr :=
            (window_congr (fun i _ hi => r2.1 i (Or.inl hi))).trans
              (window_congr (fun i hi _ => r1.1 i (Or.inr hi)))
          have c3 : window a3 midr last = window a2 midr last :=
            window_congr (fun i hi _ => r1.1 i (Or.inr (by omega)))
          exact sorted_of_step hs p a2 a' h1 h2 h3 h5 h6 h7 h8 (c1 ▸ r1.2) c2 (c3 ▸ r2.2)
            (c1 ▸ s1) s2
      · cases e3 : sort comp fuel a2 midr last with
        | none => rw [e3] at h; exact absurd h (by simp)
        | some a3 =>
          rw [e3, Option.some_bind] at h
          have r1 := sort_rangePerm hs.transNegTrans fuel _ _ _ _ h3 e3
          have r2 := sort_rangePerm hs.transNegTrans fuel _ _ _ _ h1 h
          have s1 := ih _ _ _ _ h3 e3
          have s2 := ih _ _ _ _ h1 h
          have c1 : window a' midr last = window a3 midr last :=
            window_congr (fun i hi _ => r2.1 i (Or.inr (by omega)))
          have c2 : window a' mid midr = window a2 mid midr :=
            (window_congr (fun i hi _ => r2.1 i (Or.inr hi))).trans
              (window_congr (fun i _ hi => r1.1 i (Or.inl hi)))
          have c3 : window a3 first mid = window a2 first mid :=
            window_congr (fun i _ hi => r1.1 i (Or.inl (by omega)))
          exact sorted_of_step hs p a2 a' h1 h2 h3 h5 h6 h7 h8 (c3 ▸ r2.2) c2 (c1 ▸ r1.2)
            s2 (c1 ▸ s1)

theorem window_getElem (a : Nat → α) (first last i : Nat) (h : i < (window a first last).length) :
    (window a first last)[i] = a (first + i) := by
  simp [window]

/-- The index form and the list form of "the range is ordered" agree. -/
theorem ordered_iff_pairwise (comp : α → α → Bool) (a : Nat → α) (first last : Nat) :
    Ordered comp a first last ↔ (window a first last).Pairwise (NotLess comp) := by
  rw [List.pairwise_iff_getElem]
  constructor
  · intro h i j hi hj hij
    rw [window_getElem, window_getElem]
    rw [window_length] at hi hj
    exact h (first + i) (first + j) (by omega) (by omega) (by omega)
  · intro h i j hi hij hj
    have key := h (i - first) (j - first) (by rw [window_length]; omega)
      (by rw [window_length]; omega) (by omega)
    rw [window_getElem, window_getElem] at key
    rw [show first + (i - first) = i by omega, show first + (j - first) = j by omega] at key
    exact key

theorem window_ofList (l : List α) (d : α) : window (ofList l d) 0 l.length = l := by
  apply List.ext_getElem
  · rw [window_length]; rfl
  · intro i h1 h2
    rw [window_getElem]
    simp [ofList, List.getElem?_eq_getElem h2]

/-! ## Ordered lists with the same elements -/

/-- In an ordered list, fewer than `i + 1` elements compare less than the
element at position `i`. -/
theorem countP_less_le {comp : α → α → Bool} (hs : StrictWeakOrder comp) (l : List α)
    (hl : l.Pairwise (NotLess comp)) (i : Nat) (hi : i < l.length) :
    l.countP (fun z => comp z l[i]) ≤ i := by
  have e : l.countP (fun z => comp z l[i]) =
      (l.take i).countP (fun z => comp z l[i]) + (l.drop i).countP (fun z => comp z l[i]) := by
    rw [← List.countP_append, List.take_append_drop]
  have h0 : (l.drop i).countP (fun z => comp z l[i]) = 0 := by
    rw [List.countP_eq_zero]
    intro z hz
    have hd := hl.drop (n := i)
    rw [List.drop_eq_getElem_cons hi] at hd hz
    rw [List.pairwise_cons] at hd
    rcases List.mem_cons.mp hz with rfl | hz
    · simp [hs.irrefl]
    · have := hd.1 z hz
      simp only [NotLess] at this
      simp [this]
  have h1 : (l.take i).countP (fun z => comp z l[i]) ≤ i :=
    (List.countP_le_length _).trans (by rw [List.length_take]; omega)
  omega

/-- In an ordered list, at least `i + 1` elements are not greater than the
element at position `i`. -/
theorem lt_countP_notGreater {comp : α → α → Bool} (hs : StrictWeakOrder comp) (l : List α)
    (hl : l.Pairwise (NotLess comp)) (i : Nat) (hi : i < l.length) :
    i < l.countP (fun z => !comp l[i] z) := by
  have e : l.countP (fun z => !comp l[i] z) =
      (l.take (i + 1)).countP (fun z => !comp l[i] z) +
        (l.drop (i + 1)).countP (fun z => !comp l[i] z) := by
    rw [← List.countP_append, List.take_append_drop]
  have h1 : (l.take (i + 1)).countP (fun z => !comp l[i] z) = (l.take (i + 1)).length := by
    rw [List.countP_eq_length]
    intro z hz
    have ht := hl.take (n := i + 1)
    rw [← List.take_concat_get _ _ hi] at ht hz
    rw [List.concat_eq_append, List.pairwise_append] at ht
    rw [List.concat_eq_append] at hz
    rcases List.mem_append.mp hz with hz | hz
    · have := ht.2.2 z hz l[i] (by simp)
      simp only [NotLess] at this
      simp [this]
    · rw [List.mem_singleton] at hz
      subst hz
      simp [hs.irrefl]
  rw [List.length_take] at h1
  omega

/-- Two ordered lists with the same elements hold equivalent elements at
every position. -/
theorem sorted_perm_equiv {comp : α → α → Bool} (hs : StrictWeakOrder comp) (l1 l2 : List α)
    (h1 : l1.Pairwise (NotLess comp)) (h2 : l2.Pairwise (NotLess comp)) (hp : l1.Perm l2)
    (i : Nat) (hi1 : i < l1.length) (hi2 : i < l2.length) : comp l1[i] l2[i] = false := by
  cases hxy : comp l1[i] l2[i] with
  | false => rfl
  | true =>
    have c1 := lt_countP_notGreater hs l1 h1 i hi1
    have c2 := countP_less_le hs l2 h2 i hi2
    have c3 : l1.countP (fun z => !comp l1[i] z) = l2.countP (fun z => !comp l1[i] z) :=
      hp.countP_eq _
    have c4 : l2.countP (fun z => !comp l1[i] z) ≤ l2.countP (fun z => comp z l2[i]) := by
      apply List.countP_mono_left
      intro z _ hz
      cases hzy : comp z l2[i] with
      | true => rfl
      | false =>
        have hxz : comp l1[i] z = false := by simpa using hz
        have := hs.neg_trans _ _ _ hxz hzy
        rw [hxy] at this
        exact absurd this (by simp)
    omega

/-! ## Nesting depth -/

theorem sortDepth_zero (comp : α → α → Bool) (a : Nat → α) (first last : Nat) :
    sortDepth comp 0 a first last = none := rfl

theorem sortDepth_small (comp : α → α → Bool) (fuel : Nat) (a : Nat → α) {first last : Nat}
    (h : last - first ≤ kSmallSortThreshold) :
    sortDepth comp (fuel + 1) a first last = some (BubbleSort2 comp a first last, 0) := by
  rw [sortDepth, if_neg (Nat.not_lt.mpr h)]

theorem sortDepth_large (comp : α → α → Bool) (fuel : Nat) (a : Nat → α) {first last : Nat}
    (h : kSmallSortThreshold < last - first) :
    sortDepth comp (fuel + 1) a first last =
      if (sortStep comp a first last).2.1 - first ≤ last - (sortStep comp a first last).2.2 then
        (sortDepth comp fuel (sortStep comp a first last).1 first
            (sortStep comp a first last).2.1).bind
          fun r1 => (sortDepth comp fuel r1.1 (sortStep comp a first last).2.2 last).map
            fun r2 => (r2.1, max (r1.2 + 1) r2.2)
      else
        (sortDepth comp fuel (sortStep comp a first last).1
            (sortStep comp a first last).2.2 last).bind
          fun r1 => (sortDepth comp fuel r1.1 first (sortStep comp a first last).2.1).map
            fun r2 => (r2.1, max (r1.2 + 1) r2.2) := by
  rw [sortDepth, if_pos h]

/-- The instrumented `sortDepth` computes the storage that `sort` computes. -/
theorem sortDepth_fst (comp : α → α → Bool) :
    ∀ (fuel : Nat) (a : Nat → α) (first last : Nat),
      (sortDepth comp fuel a first last).map Prod.fst = sort comp fuel a first last := by
  intro fuel
  induction fuel with
  | zero => intro a first last; rfl
  | succ fuel ih =>
    intro a first last
    by_cases hs : last - first ≤ kSmallSortThreshold
    · rw [sortDepth_small comp fuel a hs, sort_small comp fuel a hs]; rfl
    · have hl : kSmallSortThreshold < last - first := Nat.not_le.mp hs
      rw [sortDepth_large comp fuel a hl, sort_large comp fuel a hl]
      generalize sortStep comp a first last = s
      obtain ⟨a2, mid, midr⟩ := s
      simp only
      split_ifs with hb
      · rw [← ih a2 first mid]
        cases sortDepth comp fuel a2 first mid with
        | none => rfl
        | some r1 =>
          simp only [Option.some_bind, Option.map_some']
          rw [← ih r1.1 midr last]
          cases sortDepth comp fuel r1.1 midr last <;> rfl
      · rw [← ih a2 midr last]
        cases sortDepth comp fuel a2 midr last with
        | none => rfl
        | some r1 =>
          simp only [Option.some_bind, Option.map_some']
          rw [← ih r1.1 first mid]
          cases sortDepth comp fuel r1.1 first mid <;> rfl

/-- A call of `sort` nested `d ≥ 1` levels deep needs a range of at least
`2 ^ d` elements, for every comparator. -/
theorem sortDepth_bound (comp : α → α → Bool) :
    ∀ (fuel : Nat) (a : Nat → α) (first last : Nat) (r : (Nat → α) × Nat),
      sortDepth comp fuel a first last = some r → r.2 = 0 ∨ 2 ^ r.2 ≤ last - first := by
  intro fuel
  induction fuel with
  | zero => intro a first last r h; rw [sortDepth_zero] at h; exact absurd h (by simp)
  | succ fuel ih =>
    intro a first last r h
    by_cases hs : last - first ≤ kSmallSortThreshold
    · rw [sortDepth_small comp fuel a hs] at h
      cases h
      exact Or.inl rfl
    · have hl : kSmallSortThreshold < last - first := Nat.not_le.mp hs
      have hfl : first < last := by omega
      have h17 : 17 ≤ last - first := hl
      rw [sortDepth_large comp fuel a hl] at h
      obtain ⟨h1, h2, h3, -⟩ := sortStep_spec comp a hfl
      generalize sortStep comp a first last = s at h h1 h2 h3
      obtain ⟨a2, mid, midr⟩ := s
      simp only at h h1 h2 h3
      right
      split_ifs at h with hb
      · cases e1 : sortDepth comp fuel a2 first mid with
        | none => rw [e1] at h; exact absurd h (by simp)
        | some r1 =>
          rw [e1, Option.some_bind] at h
          cases e2 : sortDepth comp fuel r1.1 midr last with
          | none => rw [e2] at h; exact absurd h (by simp)
          | some r2 =>
            rw [e2, Option.map_some'] at h
            cases h
            have b1 := ih _ _ _ _ e1
            have b2 := ih _ _ _ _ e2
            simp only
            have hrec : 2 ^ (r1.2 + 1) ≤ last - first := by
              rw [pow_succ]
              rcases b1 with b1 | b1
              · rw [b1]; omega
              · omega
            rcases Nat.le_total (r1.2 + 1) r2.2 with hm | hm
            · rw [max_eq_right hm]
              rcases b2 with b2 | b2
              · omega
              · omega
            · rw [max_eq_left hm]; exact hrec
      · cases e1 : sortDepth comp fuel a2 midr last with
        | none => rw [e1] at h; exact absurd h (by simp)
        | some r1 =>
          rw [e1, Option.some_bind] at h
          cases e2 : sortDepth comp fuel r1.1 first mid with
          | none => rw [e2] at h; exact absurd h (by simp)
          | some r2 =>
            rw [e2, Option.map_some'] at h
            cases h
            have b1 := ih _ _ _ _ e1
            have b2 := ih _ _ _ _ e2
            simp only
            have hrec : 2 ^ (r1.2 + 1) ≤ last - first := by
              rw [pow_succ]
              rcases b1 with b1 | b1
              · rw [b1]; omega
              · omega
            rcases Nat.le_total (r1.2 + 1) r2.2 with hm | hm
            · rw [max_eq_right hm]
              rcases b2 with b2 | b2
              · omega
              · omega
            · rw [max_eq_left hm]; exact hrec

/-! ## Particular comparators -/

theorem swap_self (a : Nat → α) (i : Nat) : swap a i i = a := by
  funext k
  by_cases h : k = i
  · subst h
    simp [swap]
  · simp [swap, Function.update, h]

theorem partitionLoop_constTrue (pivot : Nat) :
    ∀ (k : Nat) (a : Nat → Nat) (it : Nat),
      partitionLoop constTrue pivot k a it it = (a, it + k) := by
  intro k
  induction k with
  | zero => intro a it; rfl
  | succ k ih =>
    intro a it
    unfold partitionLoop
    simp only [swap_self, constTrue, Bool.toNat_true]
    rw [ih a (it + 1)]
    congr 1
    omega

theorem sortStep_constTrue (a : Nat → Nat) : sortStep constTrue a 0 17 = (a, 17, 17) := by
  rw [sortStep_eq]
  have h : partition constTrue (median5 constTrue a 0 17) a 0 17 = (a, 17) := by
    unfold partition
    rw [partitionLoop_constTrue]
  rw [h]
  simp

theorem sort_constTrue_none : ∀ (fuel : Nat) (a : Nat → Nat),
    sort constTrue fuel a 0 17 = none := by
  intro fuel
  induction fuel with
  | zero => intro a; rfl
  | succ fuel ih =>
    intro a
    rw [sort_large constTrue fuel a (by decide), sortStep_constTrue]
    simp only [Nat.sub_zero, Nat.sub_self, Nat.le_zero_eq, OfNat.ofNat_ne_zero, if_false]
    cases h : sort constTrue fuel a 17 17 with
    | none => rfl
    | some a3 => exact ih a3

theorem lessEq_transNegTrans : TransNegTrans lessEq := by
  constructor
  · intro x y z h1 h2
    simp only [lessEq, decide_eq_true_eq] at *
    omega
  · intro x y z h1 h2
    simp only [lessEq, decide_eq_false_iff_not] at *
    omega

theorem notEqual_irrefl : ∀ x, notEqual x x = false := by
  intro x
  simp [notEqual]
/-! ## Sorting an ordered range -/

/-- Two ordered arrangements of the same elements of a range agree position
by position up to equivalence. -/
theorem ordered_rangePerm_equiv {comp : α → α → Bool} (hs : StrictWeakOrder comp)
    (a b : Nat → α) (first last : Nat) (ha : Ordered comp a first last)
    (hb : Ordered comp b first last) (hp : RangePerm a b first last) (i : Nat) (h1 : first ≤ i)
    (h2 : i < last) : comp (b i) (a i) = false ∧ comp (a i) (b i) = false := by
  have hla : i - first < (window a first last).length := by rw [window_length]; omega
  have hlb : i - first < (window b first last).length := by rw [window_length]; omega
  have pa := (ordered_iff_pairwise comp a first last).1 ha
  have pb := (ordered_iff_pairwise comp b first last).1 hb
  have e1 := sorted_perm_equiv hs _ _ pb pa hp.2 (i - first) hlb hla
  have e2 := sorted_perm_equiv hs _ _ pa pb hp.2.symm (i - first) hla hlb
  rw [window_getElem, window_getElem] at e1 e2
  have hi : first + (i - first) = i := by omega
  rw [hi] at e1 e2
  exact ⟨e1, e2⟩

/-- Sorting an ordered range gives back, at each position, an element
equivalent to the one that was there. -/
theorem sort_ordered_equiv {comp : α → α → Bool} (hs : StrictWeakOrder comp)
    (a a' : Nat → α) (first last fuel : Nat) (hfl : first ≤ last)
    (ha : Ordered comp a first last) (h : sort comp fuel a first last = some a') :
    (∀ i, first ≤ i → i < last → comp (a' i) (a i) = false ∧ comp (a i) (a' i) = false) ∧
      ((∀ x y, comp x y = false → comp y x = false → x = y) → a' = a) := by
  have hp := sort_rangePerm hs.transNegTrans fuel a first last a' hfl h
  have hb := (ordered_iff_pairwise comp a' first last).2 (sort_sorted hs fuel a first last a' hfl h)
  have key := ordered_rangePerm_equiv hs a a' first last ha hb hp
  refine ⟨key, fun htot => ?_⟩
  funext i
  by_cases hi : first ≤ i ∧ i < last
  · exact htot _ _ (key i hi.1 hi.2).1 (key i hi.1 hi.2).2
  · exact hp.1 i (by omega)
/-! ## Evaluations under the default order -/

theorem Less_antisymm : ∀ x y, Less x y = false → Less y x = false → x = y := by
  intro x y h1 h2
  simp only [Less, decide_eq_false_iff_not] at h1 h2
  omega

set_option maxRecDepth 100000 in
theorem ascending20_ordered : Ordered Less (ofList (List.range' 1 20) 0) 0 20 := by
  rw [ordered_iff_pairwise]
  unfold NotLess
  decide

set_option maxRecDepth 100000 in
theorem nanosort_scenario_nine :
    (nanosortLess 1 (ofList [5, 3, 8, 1, 9, 2, 7, 4, 6] 0) 0 9).map (fun a => window a 0 9) =
      some [1, 2, 3, 4, 5, 6, 7, 8, 9] := by
  decide

set_option maxRecDepth 1000000 in
theorem nanosort_scenario_descending :
    (nanosortLess 3 (ofList descending20 0) 0 20).map (fun a => window a 0 20) =
      some [1, 2, 3, 4, 5, 6, 7, 8, 9, 10, 11, 12, 13, 14, 15, 16, 17, 18, 19, 20] := by
  decide
/-! ## Counting the evaluations of the comparator -/

theorem median5NetCount_eq (comp : α → α → Bool) (e0 e1 e2 e3 e4 : α) (c : Nat) :
    median5NetCount comp e0 e1 e2 e3 e4 c = (median5Net comp e0 e1 e2 e3 e4, c + 7) := rfl

theorem median5Count_eq (comp : α → α → Bool) (a : Nat → α) (first last c : Nat) :
    median5Count comp a first last c = (median5 comp a first last, c + 7) := rfl

theorem partitionLoopCount_eq (comp : α → α → Bool) (pivot : α) :
    ∀ (k : Nat) (a : Nat → α) (res it c : Nat),
      partitionLoopCount comp pivot k a res it c =
        ((partitionLoop comp pivot k a res it).1, (partitionLoop comp pivot k a res it).2,
          c + k) := by
  intro k
  induction k with
  | zero => intro a res it c; rfl
  | succ k ih =>
    intro a res it c
    unfold partitionLoopCount partitionLoop
    simp only
    rw [ih]
    simp only [Nat.add_assoc, Nat.add_comm 1 k]

theorem partitionRevLoopCount_eq (comp : α → α → Bool) (pivot : α) :
    ∀ (k : Nat) (a : Nat → α) (res it c : Nat),
      partitionRevLoopCount comp pivot k a res it c =
        ((partitionRevLoop comp pivot k a res it).1, (partitionRevLoop comp pivot k a res it).2,
          c + k) := by
  intro k
  induction k with
  | zero => intro a res it c; rfl
  | succ k ih =>
    intro a res it c
    unfold partitionRevLoopCount partitionRevLoop
    simp only
    rw [ih]
    simp only [Nat.add_assoc, Nat.add_comm 1 k]

theorem BubbleSort2InnerCount_eq (comp : α → α → Bool) (first : Nat) :
    ∀ (k j : Nat) (a : Nat → α) (x y : α) (c : Nat),
      BubbleSort2InnerCount comp first k j a x y c =
        ((BubbleSort2Inner comp first k j a x y).1, (BubbleSort2Inner comp first k j a x y).2.1,
          (BubbleSort2Inner comp first k j a x y).2.2, c + 2 * k) := by
  intro k
  induction k with
  | zero => intro j a x y c; rfl
  | succ k ih =>
    intro j a x y c
    unfold BubbleSort2InnerCount BubbleSort2Inner
    simp only
    rw [ih]
    have e : c + 1 + 1 + 2 * k = c + 2 * (k + 1) := by omega
    rw [e]

theorem BubbleSort2LoopCount_fst (comp : α → α → Bool) (first : Nat) :
    ∀ (n i : Nat) (a : Nat → α) (c : Nat), i ≤ n →
      (BubbleSort2LoopCount comp first i a c).1 = BubbleSort2Loop comp first i a := by
  intro n
  induction n with
  | zero =>
    intro i a c hi
    have : i = 0 := by omega
    subst this
    rfl
  | succ n ih =>
    intro i a c hi
    match i with
    | 0 => rfl
    | 1 => rfl
    | i + 2 =>
      unfold BubbleSort2LoopCount BubbleSort2Loop
      simp only
      rw [BubbleSort2InnerCount_eq]
      simp only
      rw [ih i _ _ (by omega)]

theorem BubbleSort2LoopCount_short (comp : α → α → Bool) (first i : Nat) (a : Nat → α) (c : Nat)
    (h : i ≤ 1) : BubbleSort2LoopCount comp first i a c = (a, c) := by
  match i with
  | 0 => rfl
  | 1 => rfl
  | i + 2 => omega

theorem BubbleSort2Loop_short (comp : α → α → Bool) (first i : Nat) (a : Nat → α)
    (h : i ≤ 1) : BubbleSort2Loop comp first i a = a := by
  match i with
  | 0 => rfl
  | 1 => rfl
  | i + 2 => omega

theorem sortCount_small (comp : α → α → Bool) (fuel : Nat) (a : Nat → α) {first last : Nat}
    (c : Nat) (h : last - first ≤ kSmallSortThreshold) :
    sortCount comp (fuel + 1) a first last c =
      some (BubbleSort2LoopCount comp first (last - first) a c) := by
  unfold sortCount
  rw [if_neg (Nat.not_lt.mpr h)]

/-- The number of comparator evaluations one pass of the driver loop of
`sort` makes before it branches: 7 in `median5`, one per element in
`partition`, and one per element of `[mid, last)` in `partition_rev` when the
partition is skewed. -/
theorem sortCount_large (comp : α → α → Bool) (fuel : Nat) (a : Nat → α) {first last : Nat}
    (c : Nat) (h : kSmallSortThreshold < last - first) :
    sortCount comp (fuel + 1) a first last c =
      if (sortStep comp a first last).2.1 - first ≤ last - (sortStep comp a first last).2.2 then
        (sortCount comp fuel (sortStep comp a first last).1 first (sortStep comp a first last).2.1
          (c + 7 + (last - first) +
            if (sortStep comp a first last).2.1 - first ≤ (last - first) >>> 3 then
              last - (sortStep comp a first last).2.1 else 0)).bind
          fun r => sortCount comp fuel r.1 (sortStep comp a first last).2.2 last r.2
      else
        (sortCount comp fuel (sortStep comp a first last).1 (sortStep comp a first last).2.2 last
          (c + 7 + (last - first) +
            if (sortStep comp a first last).2.1 - first ≤ (last - first) >>> 3 then
              last - (sortStep comp a first last).2.1 else 0)).bind
          fun r => sortCount comp fuel r.1 first (sortStep comp a first last).2.1 r.2 := by
  conv_lhs => rw [sortCount]
  rw [if_pos h]
  simp only [median5Count_eq, partitionLoopCount_eq, partitionRevLoopCount_eq]
  rw [sortStep_eq]
  unfold partition partition_rev
  generalize partitionLoop comp (median5 comp a first last) (last - first) a first first = p
  obtain ⟨a1, mid⟩ := p
  simp only
  generalize partitionRevLoop comp (median5 comp a first last) (last - mid) a1 mid mid = q
  obtain ⟨a2, midr⟩ := q
  by_cases hk : mid - first ≤ (last - first) >>> 3
  · simp only [hk, decide_True, if_true]
  · simp only [hk, decide_False, if_false, Bool.false_eq_true, Nat.add_zero]

theorem sortCount_fst (comp : α → α → Bool) :
    ∀ (fuel : Nat) (a : Nat → α) (first last c : Nat),
      (sortCount comp fuel a first last c).map Prod.fst = sort comp fuel a first last := by
  intro fuel
  induction fuel with
  | zero => intro a first last c; rfl
  | succ fuel ih =>
    intro a first last c
    by_cases hs : last - first ≤ kSmallSortThreshold
    · rw [sortCount_small comp fuel a c hs, sort_small comp fuel a hs]
      simp only [Option.map_some', BubbleSort2]
      rw [BubbleSort2LoopCount_fst comp first _ _ a c (le_refl _)]
    · have hl : kSmallSortThreshold < last - first := Nat.not_le.mp hs
      rw [sortCount_large comp fuel a c hl, sort_large comp fuel a hl]
      generalize sortStep comp a first last = s
      obtain ⟨a2, mid, midr⟩ := s
      simp only
      generalize (c + 7 + (last - first) + if mid - first ≤ (last - first) >>> 3 then
        last - mid else 0) = c1
      split_ifs with hb
      · rw [← ih a2 first mid c1]
        cases sortCount comp fuel a2 first mid c1 with
        | none => rfl
        | some r1 =>
          simp only [Option.some_bind, Option.map_some']
          rw [← ih r1.1 midr last r1.2]
      · rw [← ih a2 midr last c1]
        cases sortCount comp fuel a2 midr last c1 with
        | none => rfl
        | some r1 =>
          simp only [Option.some_bind, Option.map_some']
          rw [← ih r1.1 first mid r1.2]

/-! ## The skew correction -/

/-- What `sort` leaves of the three regions cut out by one pass of its driver
loop: the outer two are rearranged within themselves, and the region between
`mid` and `midr` is not written again. -/
theorem sort_large_regions {comp : α → α → Bool} (hc : TransNegTrans comp) (fuel : Nat)
    (a a' : Nat → α) {first last : Nat} (h : kSmallSortThreshold < last - first)
    (hr : sort comp (fuel + 1) a first last = some a') :
    (window a' first (sortStep comp a first last).2.1).Perm
        (window (sortStep comp a first last).1 first (sortStep comp a first last).2.1) ∧
      (∀ i, (sortStep comp a first last).2.1 ≤ i → i < (sortStep comp a first last).2.2 →
        a' i = (sortStep comp a first last).1 i) ∧
      (window a' (sortStep comp a first last).2.2 last).Perm
        (window (sortStep comp a first last).1 (sortStep comp a first last).2.2 last) := by
  have hfl' : first < last := by omega
  rw [sort_large comp fuel a h] at hr
  obtain ⟨h1, h2, h3, -⟩ := sortStep_spec comp a hfl'
  generalize sortStep comp a first last = s at hr h1 h2 h3
  obtain ⟨a2, mid, midr⟩ := s
  simp only at hr h1 h2 h3 ⊢
  split_ifs at hr with hb
  · cases e3 : sort comp fuel a2 first mid with
    | none => rw [e3] at hr; exact absurd hr (by simp)
    | some a3 =>
      rw [e3, Option.some_bind] at hr
      have p1 := sort_rangePerm hc fuel a2 first mid a3 h1 e3
      have p2 := sort_rangePerm hc fuel a3 midr last a' h3 hr
      refine ⟨?_, ?_, ?_⟩
      · rw [window_congr (fun i _ hi => p2.1 i (Or.inl (by omega)))]
        exact p1.2
      · intro i hi1 hi2
        rw [p2.1 i (Or.inl hi2), p1.1 i (Or.inr hi1)]
      · rw [← window_congr (fun i hi _ => p1.1 i (Or.inr (by omega)))]
        exact p2.2
  · cases e3 : sort comp fuel a2 midr last with
    | none => rw [e3] at hr; exact absurd hr (by simp)
    | some a3 =>
      rw [e3, Option.some_bind] at hr
      have p1 := sort_rangePerm hc fuel a2 midr last a3 h3 e3
      have p2 := sort_rangePerm hc fuel a3 first mid a' h1 hr
      refine ⟨?_, ?_, ?_⟩
      · rw [← window_congr (fun i _ hi => p1.1 i (Or.inl (by omega)))]
        exact p2.2
      · intro i hi1 hi2
        rw [p2.1 i (Or.inr hi1), p1.1 i (Or.inl hi2)]
      · rw [window_congr (fun i hi _ => p2.1 i (Or.inr (by omega)))]
        exact p1.2

theorem sortStep_skew (comp : α → α → Bool) (a : Nat → α) (first last : Nat)
    (hskew : (partition comp (median5 comp a first last) a first last).2 - first ≤
      (last - first) >>> 3) :
    (sortStep comp a first last).2.1 = (partition comp (median5 comp a first last) a first last).2 ∧
      ((sortStep comp a first last).1, (sortStep comp a first last).2.2) =
        partition_rev comp (median5 comp a first last)
          (partition comp (median5 comp a first last) a first last).1
          (partition comp (median5 comp a first last) a first last).2 last := by
  rw [sortStep_eq, if_pos hskew]
  exact ⟨rfl, rfl⟩

theorem sortStep_not_skew (comp : α → α → Bool) (a : Nat → α) (first last : Nat)
    (hskew : ¬ (partition comp (median5 comp a first last) a first last).2 - first ≤
      (last - first) >>> 3) :
    sortStep comp a first last =
      ((partition comp (median5 comp a first last) a first last).1,
        (partition comp (median5 comp a first last) a first last).2,
        (partition comp (median5 comp a first last) a first last).2) := by
  rw [sortStep_eq, if_neg hskew]

theorem sortStep_mid (comp : α → α → Bool) (a : Nat → α) (first last : Nat) :
    (sortStep comp a first last).2.1 =
      (partition comp (median5 comp a first last) a first last).2 := by
  rw [sortStep_eq]
  split_ifs <;> rfl

/-! ## Ranges of identical elements -/

/-- Rearranging a range of identical elements changes nothing. -/
theorem rangePerm_constant {a b : Nat → α} {first last : Nat} {v : α}
    (hall : ∀ i, first ≤ i → i < last → a i = v) (hp : RangePerm a b first last) : b = a := by
  funext i
  by_cases hi : first ≤ i ∧ i < last
  · have hm : b i ∈ window b first last := mem_window.2 ⟨i, hi.1, hi.2, rfl⟩
    obtain ⟨j, j1, j2, j3⟩ := mem_window.1 (hp.2.mem_iff.1 hm)
    rw [← j3, hall j j1 j2, hall i hi.1 hi.2]
  · exact hp.1 i (by omega)

/-- On a range of identical elements the pivot is that element, `partition`
returns `first`, the partition is skewed, `partition_rev` returns `last`, and
the storage is not changed. -/
theorem sortStep_constant {comp : α → α → Bool} (hirr : ∀ x, comp x x = false) {a : Nat → α}
    {first last : Nat} {v : α} (hall : ∀ i, first ≤ i → i < last → a i = v)
    (hfl : first < last) :
    median5 comp a first last = v ∧
      partition comp (median5 comp a first last) a first last = (a, first) ∧
      sortStep comp a first last = (a, first, last) := by
  have hv : median5 comp a first last = v := by
    obtain ⟨j, j1, j2, j3⟩ := mem_window.1 (median5_mem_window comp a hfl)
    rw [← j3, hall j j1 j2]
  have hP : partition comp (median5 comp a first last) a first last = (a, first) := by
    obtain ⟨p1, p2, p3, -, p5⟩ := partition_spec comp (median5 comp a first last) a hfl.le
    have e1 := rangePerm_constant hall p5
    have e2 : (partition comp (median5 comp a first last) a first last).2 = first := by
      by_contra hne
      have := p3 first (le_refl _) (by omega)
      rw [e1, hall first (le_refl _) hfl, hv, hirr] at this
      exact Bool.noConfusion this
    exact Prod.ext e1 e2
  refine ⟨hv, hP, ?_⟩
  have hskew : (partition comp (median5 comp a first last) a first last).2 - first ≤
      (last - first) >>> 3 := by
    rw [hP]
    simp
  obtain ⟨e1, e2⟩ := sortStep_skew comp a first last hskew
  rw [hP] at e1 e2
  simp only at e1 e2
  obtain ⟨q1, q2, -, q4, q5⟩ := partition_rev_spec comp (median5 comp a first last) a hfl.le
  have f1 := rangePerm_constant hall q5
  have f2 : (partition_rev comp (median5 comp a first last) a first last).2 = last := by
    by_contra hne
    have := q4 _ (le_refl _) (by omega)
    rw [f1, hall _ q1 (by omega), hv, hirr] at this
    exact Bool.noConfusion this
  rw [← e2] at f1 f2
  simp only at f1 f2
  exact Prod.ext f1 (Prod.ext e1 f2)

theorem BubbleSort2_empty (comp : α → α → Bool) (a : Nat → α) (first : Nat) :
    BubbleSort2 comp a first first = a := by
  unfold BubbleSort2
  rw [Nat.sub_self]
  rfl

/-! ## The passes of BubbleSort2 -/

theorem BubbleSort2Pass_eq (comp : α → α → Bool) (first i : Nat) (a : Nat → α) :
    BubbleSort2Pass comp first (i + 2) a =
      Function.update
        (Function.update
          (BubbleSort2Inner comp first i 2 a
            (if comp (a (first + 1)) (a first) then a (first + 1) else a first)
            (if comp (a (first + 1)) (a first) then a first else a (first + 1))).1
          (first + i)
          (BubbleSort2Inner comp first i 2 a
            (if comp (a (first + 1)) (a first) then a (first + 1) else a first)
            (if comp (a (first + 1)) (a first) then a first else a (first + 1))).2.1)
        (first + i + 1)
        (BubbleSort2Inner comp first i 2 a
          (if comp (a (first + 1)) (a first) then a (first + 1) else a first)
          (if comp (a (first + 1)) (a first) then a first else a (first + 1))).2.2 := by
  have e1 : first + (i + 2) - 2 = first + i := by omega
  have e2 : first + (i + 2) - 1 = first + i + 1 := by omega
  have e3 : i + 2 - 2 = i := by omega
  cases h : comp (a (first + 1)) (a first) <;>
    simp only [BubbleSort2Pass, Nat.add_zero, h, if_true, Bool.false_eq_true, if_false, e1, e2, e3]

/-- The outer loop of `BubbleSort2` runs one pass and goes on with the window
shorter by two. -/
theorem BubbleSort2Loop_pass (comp : α → α → Bool) (first i : Nat) (a : Nat → α) :
    BubbleSort2Loop comp first (i + 2) a =
      BubbleSort2Loop comp first i (BubbleSort2Pass comp first (i + 2) a) := by
  rw [BubbleSort2Loop_step, BubbleSort2Pass_eq]

theorem BubbleSort2Pass_rangePerm {comp : α → α → Bool} (hc : TransNegTrans comp)
    (first i : Nat) (a : Nat → α) :
    RangePerm a (BubbleSort2Pass comp first (i + 2) a) first (first + (i + 2)) := by
  rw [BubbleSort2Pass_eq]
  generalize hx : (if comp (a (first + 1)) (a first) then a (first + 1) else a first) = x
  generalize hy : (if comp (a (first + 1)) (a first) then a first else a (first + 1)) = y
  have hinv : comp x y = true ∨ comp y x = false := by
    subst hx; subst hy
    cases h : comp (a (first + 1)) (a first)
    · right; simp [h]
    · left; simp [h]
  have hxy : [x, y].Perm [a first, a (first + 1)] := by
    subst hx; subst hy
    cases h : comp (a (first + 1)) (a first)
    · simp
    · simp only [if_true]; exact List.Perm.swap _ _ _
  obtain ⟨key, -⟩ := BubbleSort2Inner_perm hc first i 2 a x y (le_refl _) hinv
  have hfr := BubbleSort2Inner_frame comp first i 2 a x y
  generalize BubbleSort2Inner comp first i 2 a x y = r at key hfr ⊢
  obtain ⟨a1, x1, y1⟩ := r
  simp only at key hfr ⊢
  have e1 : first + 2 - 2 = first := by omega
  have e2 : first + 2 + i - 2 = first + i := by omega
  rw [e1, e2] at key
  constructor
  · intro k hk
    rw [Function.update_noteq (by omega), Function.update_noteq (by omega)]
    exact hfr k (by omega) (le_refl _)
  · have w1 : window (Function.update (Function.update a1 (first + i) x1) (first + i + 1) y1)
        first (first + (i + 2)) = window a1 first (first + i) ++ [x1, y1] := by
      rw [show first + (i + 2) = first + i + 1 + 1 by omega,
        window_last _ (show first ≤ first + i + 1 by omega),
        window_last _ (show first ≤ first + i by omega)]
      rw [Function.update_same, Function.update_noteq (by omega), Function.update_same,
        List.append_assoc]
      congr 1
      exact window_congr (fun k _ h2 => by
        rw [Function.update_noteq (by omega), Function.update_noteq (by omega)])
    have w2 : window a first (first + (i + 2)) =
        a first :: a (first + 1) :: window a (first + 2) (first + 2 + i) := by
      rw [window_succ a (show first < first + (i + 2) by omega),
        window_succ a (show first + 1 < first + (i + 2) by omega)]
      congr 3; omega
    rw [w1, w2]
    have s1 : (window a1 first (first + i) ++ [x1, y1]).Perm
        (x1 :: y1 :: window a1 first (first + i)) := List.perm_append_comm
    exact s1.trans (key.trans (hxy.append_right _))

/-- One pass of `BubbleSort2` over a window of `i + 2` elements leaves at the
last two positions two elements in order, the first of them not less than
any element of the rest of the window. -/
theorem BubbleSort2Pass_max {comp : α → α → Bool} (hs : StrictWeakOrder comp)
    (first i : Nat) (a : Nat → α) :
    comp (BubbleSort2Pass comp first (i + 2) a (first + i + 1))
        (BubbleSort2Pass comp first (i + 2) a (first + i)) = false ∧
      ∀ k, first ≤ k → k < first + i →
        comp (BubbleSort2Pass comp first (i + 2) a (first + i))
          (BubbleSort2Pass comp first (i + 2) a k) = false := by
  rw [BubbleSort2Pass_eq]
  generalize hx : (if comp (a (first + 1)) (a first) then a (first + 1) else a first) = x
  generalize hy : (if comp (a (first + 1)) (a first) then a first else a (first + 1)) = y
  have hxy : comp y x = false := by
    subst hx; subst hy
    cases h : comp (a (first + 1)) (a first)
    · simp [h]
    · simp only [if_true]; exact hs.asymm _ _ h
  obtain ⟨-, k2, k3⟩ := BubbleSort2Inner_le hs first i 2 a x y (le_refl _) hxy
  generalize BubbleSort2Inner comp first i 2 a x y = r at k2 k3 ⊢
  obtain ⟨a1, x1, y1⟩ := r
  simp only at k2 k3 ⊢
  rw [Function.update_same, Function.update_noteq (by omega), Function.update_same]
  refine ⟨k2, fun k h1 h2 => ?_⟩
  rw [Function.update_noteq (by omega), Function.update_noteq (by omega)]
  exact k3 k (by omega) (by omega)

/-! ## The positions read by median5 -/

theorem median5Positions_eq (first last : Nat) :
    median5Positions first last =
      [first, first + (last - first) / 4, first + 2 * ((last - first) / 4),
        first + 3 * ((last - first) / 4), first + (last - first - 1)] := by
  simp only [median5Positions, Nat.shiftRight_eq_div_pow]
  norm_num
  refine ⟨?_, ?_⟩ <;> ring

/-- The value of `median5` is the network applied to the storage at the five
addresses of `median5Positions`. -/
theorem median5_eq_net (comp : α → α → Bool) (a : Nat → α) (first last : Nat) :
    median5 comp a first last =
      median5Net comp (a ((median5Positions first last).getD 0 0))
        (a ((median5Positions first last).getD 1 0)) (a ((median5Positions first last).getD 2 0))
        (a ((median5Positions first last).getD 3 0))
        (a ((median5Positions first last).getD 4 0)) := rfl

/-- The value of `median5` depends on the storage at the five addresses only. -/
theorem median5_congr (comp : α → α → Bool) (a b : Nat → α) (first last : Nat)
    (h : ∀ p ∈ median5Positions first last, a p = b p) :
    median5 comp a first last = median5 comp b first last := by
  simp only [median5Positions, List.mem_cons, List.mem_singleton, List.not_mem_nil, or_false,
    forall_eq_or_imp, forall_eq] at h
  obtain ⟨h0, h1, h2, h3, h4⟩ := h
  unfold median5
  simp only [h0, h1, h2, h3, h4]

/-! ## The stable left block of partition -/

/-- The scan of `partition` appends to the block before the write cursor the
elements of the unread part that compare less than the pivot, in their order. -/
theorem partitionLoop_filter (comp : α → α → Bool) (pivot : α) (first : Nat) :
    ∀ (k : Nat) (a : Nat → α) (res it : Nat), first ≤ res → res ≤ it →
      window (partitionLoop comp pivot k a res it).1 first (partitionLoop comp pivot k a res it).2 =
        window a first res ++ (window a it (it + k)).filter (fun x => comp x pivot) := by
  intro k
  induction k with
  | zero =>
    intro a res it h1 h2
    simp only [partitionLoop, Nat.add_zero]
    rw [window_empty a (le_refl it)]
    simp
  | succ k ih =>
    intro a res it h1 h2
    simp only [partitionLoop]
    have hw : window a it (it + (k + 1)) = a it :: window a (it + 1) (it + 1 + k) := by
      rw [window_succ a (show it < it + (k + 1) by omega)]
      congr 2
      omega
    have hrest : window (swap a res it) (it + 1) (it + 1 + k) = window a (it + 1) (it + 1 + k) :=
      window_congr (fun i hi1 hi2 => swap_apply_of_ne a (by omega) (by omega))
    have hleft : window (swap a res it) first res = window a first res :=
      window_congr (fun i hi1 hi2 => swap_apply_of_ne a (by omega) (by omega))
    cases hr : comp (a it) pivot with
    | true =>
      simp only [Bool.toNat_true]
      rw [ih (swap a res it) (res + 1) (it + 1) (by omega) (by omega), hrest, hw,
        window_last _ h1, hleft, swap_apply_left, List.filter_cons_of_pos (by simpa using hr)]
      simp
    | false =>
      simp only [Bool.toNat_false, Nat.add_zero]
      rw [ih (swap a res it) res (it + 1) h1 (by omega), hrest, hw, hleft,
        List.filter_cons_of_neg (by simpa using hr)]

/-- The block `partition` leaves before its boundary is the input filtered by
"less than the pivot", and the boundary is `first` plus the number of such
elements. -/
theorem partition_filter (comp : α → α → Bool) (pivot : α) (a : Nat → α) {first last : Nat}
    (h : first ≤ last) :
    window (partition comp pivot a first last).1 first (partition comp pivot a first last).2 =
        (window a first last).filter (fun x => comp x pivot) ∧
      (partition comp pivot a first last).2 =
        first + (window a first last).countP (fun x => comp x pivot) := by
  have key := partitionLoop_filter comp pivot first (last - first) a first first (le_refl _)
    (le_refl _)
  have e : first + (last - first) = last := by omega
  rw [e, window_empty a (le_refl first), List.nil_append] at key
  have hb := (partition_spec comp pivot a h).1
  refine ⟨key, ?_⟩
  have hl := congrArg List.length key
  rw [window_length, ← List.countP_eq_length_filter] at hl
  unfold partition at hb ⊢
  omega

/-! ## The rank of the pivot -/

/-- A compare-exchange `if (comp(p, q)) swap(p, q)` leaves `q` not less than
`p`, and the two values are the old ones in some order. -/
theorem condSwap_spec {comp : α → α → Bool} (hs : StrictWeakOrder comp) (p q : α) :
    comp (if comp p q = true then (q, p) else (p, q)).1
        (if comp p q = true then (q, p) else (p, q)).2 = false ∧
      (((if comp p q = true then (q, p) else (p, q)).1 = p ∧
          (if comp p q = true then (q, p) else (p, q)).2 = q) ∨
        ((if comp p q = true then (q, p) else (p, q)).1 = q ∧
          (if comp p q = true then (q, p) else (p, q)).2 = p)) := by
  by_cases h : comp p q = true
  · rw [if_pos h]
    exact ⟨hs.asymm p q h, Or.inr ⟨rfl, rfl⟩⟩
  · rw [if_neg h]
    exact ⟨by simpa using h, Or.inl ⟨rfl, rfl⟩⟩

/-- The compare-exchange `if (comp(p, q)) swap(q, p)` in the order in which
the sixth step of `median5` names its operands. -/
theorem condSwap_spec_rev {comp : α → α → Bool} (hs : StrictWeakOrder comp) (p q : α) :
    comp (if comp p q = true then (p, q) else (q, p)).2
        (if comp p q = true then (p, q) else (q, p)).1 = false ∧
      (((if comp p q = true then (p, q) else (q, p)).1 = p ∧
          (if comp p q = true then (p, q) else (q, p)).2 = q) ∨
        ((if comp p q = true then (p, q) else (q, p)).1 = q ∧
          (if comp p q = true then (p, q) else (q, p)).2 = p)) := by
  by_cases h : comp p q = true
  · rw [if_pos h]
    exact ⟨hs.asymm p q h, Or.inl ⟨rfl, rfl⟩⟩
  · rw [if_neg h]
    exact ⟨by simpa using h, Or.inr ⟨rfl, rfl⟩⟩

/-- The network of `median5` under a strict weak order: its five locals end
as a rearrangement of the five samples in which the returned `e2` is not less
than `e0` and `e1` and not greater than `e3`. -/
theorem median5Net_rank {comp : α → α → Bool} (hs : StrictWeakOrder comp) (e0 e1 e2 e3 e4 : α) :
    ∃ f0 f1 f3 f4, [f0, f1, median5Net comp e0 e1 e2 e3 e4, f3, f4].Perm [e0, e1, e2, e3, e4] ∧
      comp (median5Net comp e0 e1 e2 e3 e4) f0 = false ∧
      comp (median5Net comp e0 e1 e2 e3 e4) f1 = false ∧
      comp f3 (median5Net comp e0 e1 e2 e3 e4) = false := by
  classical
  unfold median5Net
  simp only
  obtain ⟨q1, c1⟩ := condSwap_spec hs e1 e0
  generalize (if comp e1 e0 = true then (e0, e1) else (e1, e0)) = P1 at q1 c1 ⊢
  obtain ⟨b1, b0⟩ := P1
  obtain ⟨q2, c2⟩ := condSwap_spec hs e4 e3
  generalize (if comp e4 e3 = true then (e3, e4) else (e4, e3)) = P2 at q2 c2 ⊢
  obtain ⟨b4, b3⟩ := P2
  simp only at q1 c1 q2 c2 ⊢
  obtain ⟨q3, c3⟩ := condSwap_spec hs b3 b0
  generalize (if comp b3 b0 = true then (b0, b3) else (b3, b0)) = P3 at q3 c3 ⊢
  obtain ⟨c3v, c0⟩ := P3
  obtain ⟨q4, c4⟩ := condSwap_spec hs b1 b4
  generalize (if comp b1 b4 = true then (b4, b1) else (b1, b4)) = P4 at q4 c4 ⊢
  obtain ⟨d1, d4⟩ := P4
  simp only at q3 c3 q4 c4 ⊢
  obtain ⟨q5, c5⟩ := condSwap_spec hs e2 d1
  generalize (if comp e2 d1 = true then (d1, e2) else (e2, d1)) = P5 at q5 c5 ⊢
  obtain ⟨g2, g1⟩ := P5
  simp only at q5 c5 ⊢
  obtain ⟨q6, c6⟩ := condSwap_spec_rev hs c3v g2
  generalize (if comp c3v g2 = true then (c3v, g2) else (g2, c3v)) = P6 at q6 c6 ⊢
  obtain ⟨h2, h3⟩ := P6
  simp only at q6 c6 ⊢
  obtain ⟨q7, c7⟩ := condSwap_spec hs h2 g1
  generalize (if comp h2 g1 = true then (g1, h2) else (h2, g1)) = P7 at q7 c7 ⊢
  obtain ⟨m, k1⟩ := P7
  simp only at q7 c7 ⊢
  -- `c0` is least among `b1`, `b4`, `c3v`
  have A1 : comp b1 c0 = false := by
    rcases c3 with ⟨-, rfl⟩ | ⟨rfl, rfl⟩
    · exact q1
    · exact hs.neg_trans _ _ _ q1 q3
  have A4 : comp b4 c0 = false := by
    rcases c3 with ⟨rfl, rfl⟩ | ⟨-, rfl⟩
    · exact hs.neg_trans _ _ _ q2 q3
    · exact q2
  have B : comp d1 c0 = false := by
    rcases c4 with ⟨rfl, -⟩ | ⟨rfl, -⟩
    · exact A1
    · exact A4
  have C0 : comp g2 d1 = false := by
    rcases c5 with ⟨rfl, rfl⟩ | ⟨rfl, -⟩
    · exact q5
    · exact hs.irrefl _
  have C : comp g2 c0 = false := hs.neg_trans _ _ _ C0 B
  have D : comp h2 c0 = false := by
    rcases c6 with ⟨rfl, -⟩ | ⟨rfl, -⟩
    · exact q3
    · exact C
  have E0 : comp m h2 = false := by
    rcases c7 with ⟨rfl, -⟩ | ⟨rfl, rfl⟩
    · exact hs.irrefl _
    · exact q7
  have E : comp m c0 = false := hs.neg_trans _ _ _ E0 D
  have F : comp h3 m = false := by
    rcases c7 with ⟨rfl, -⟩ | ⟨rfl, -⟩
    · exact q6
    · rcases c6 with ⟨-, rfl⟩ | ⟨rfl, rfl⟩
      · exact q5
      · exact hs.neg_trans _ _ _ q6 q5
  refine ⟨c0, k1, h3, d4, ?_, E, q7, F⟩
  have p1 : [b0, b1, e2, e3, e4].Perm [e0, e1, e2, e3, e4] := by
    rcases c1 with ⟨rfl, rfl⟩ | ⟨rfl, rfl⟩
    · exact List.Perm.refl _
    · exact List.Perm.swap _ _ _
  have p2 : [b0, b1, e2, b3, b4].Perm [b0, b1, e2, e3, e4] := by
    rcases c2 with ⟨rfl, rfl⟩ | ⟨rfl, rfl⟩
    · exact List.Perm.refl _
    · rw [List.perm_iff_count]; intro v; simp only [List.count_cons, List.count_nil]; omega
  have p3 : [c0, b1, e2, c3v, b4].Perm [b0, b1, e2, b3, b4] := by
    rcases c3 with ⟨rfl, rfl⟩ | ⟨rfl, rfl⟩
    · exact List.Perm.refl _
    · rw [List.perm_iff_count]; intro v; simp only [List.count_cons, List.count_nil]; omega
  have p4 : [c0, d1, e2, c3v, d4].Perm [c0, b1, e2, c3v, b4] := by
    rcases c4 with ⟨rfl, rfl⟩ | ⟨rfl, rfl⟩
    · exact List.Perm.refl _
    · rw [List.perm_iff_count]; intro v; simp only [List.count_cons, List.count_nil]; omega
  have p5 : [c0, g1, g2, c3v, d4].Perm [c0, d1, e2, c3v, d4] := by
    rcases c5 with ⟨rfl, rfl⟩ | ⟨rfl, rfl⟩
    · exact List.Perm.refl _
    · rw [List.perm_iff_count]; intro v; simp only [List.count_cons, List.count_nil]; omega
  have p6 : [c0, g1, h2, h3, d4].Perm [c0, g1, g2, c3v, d4] := by
    rcases c6 with ⟨rfl, rfl⟩ | ⟨rfl, rfl⟩
    · rw [List.perm_iff_count]; intro v; simp only [List.count_cons, List.count_nil]; omega
    · exact List.Perm.refl _
  have p7 : [c0, k1, m, h3, d4].Perm [c0, g1, h2, h3, d4] := by
    rcases c7 with ⟨rfl, rfl⟩ | ⟨rfl, rfl⟩
    · exact List.Perm.refl _
    · rw [List.perm_iff_count]; intro v; simp only [List.count_cons, List.count_nil]; omega
  exact p7.trans (p6.trans (p5.trans (p4.trans (p3.trans (p2.trans p1)))))

/-- Among five values rearranged so that three named ones are not greater
than `m`, at least three are not greater than `m`; likewise for two that are
not less. -/
theorem median5Net_counts {comp : α → α → Bool} (hs : StrictWeakOrder comp) (e0 e1 e2 e3 e4 : α) :
    3 ≤ [e0, e1, e2, e3, e4].countP (fun x => !comp (median5Net comp e0 e1 e2 e3 e4) x) ∧
      2 ≤ [e0, e1, e2, e3, e4].countP (fun x => !comp x (median5Net comp e0 e1 e2 e3 e4)) := by
  obtain ⟨f0, f1, f3, f4, hp, h0, h1, h3⟩ := median5Net_rank hs e0 e1 e2 e3 e4
  generalize median5Net comp e0 e1 e2 e3 e4 = m at hp h0 h1 h3 ⊢
  rw [← hp.countP_eq, ← hp.countP_eq]
  have hm := hs.irrefl m
  constructor
  · simp only [List.countP_cons, List.countP_nil, h0, h1, hm, Bool.not_false, if_true]
    omega
  · simp only [List.countP_cons, List.countP_nil, h3, hm, Bool.not_false, if_true]
    omega

/-! ## BubbleSort and BubbleSort2 on lists -/

theorem bubbleL_length (comp : α → α → Bool) :
    ∀ (l : List α) (x : α), (bubbleL comp x l).1.length = l.length := by
  intro l
  induction l with
  | nil => intro x; rfl
  | cons y l ih =>
    intro x
    simp only [bubbleL, List.length_cons, ih]

theorem bubble2L_length (comp : α → α → Bool) :
    ∀ (l : List α) (x y : α), (bubble2L comp x y l).1.length = l.length := by
  intro l
  induction l with
  | nil => intro x y; rfl
  | cons z l ih =>
    intro x y
    simp only [bubble2L, List.length_cons, ih]

/-- Carrying two elements through a list, as `BubbleSort2` does, stores what
carrying the greater and then the smaller through it stores, as two passes of
`BubbleSort` do. -/
theorem bubble2L_eq {comp : α → α → Bool} (hs : StrictWeakOrder comp) :
    ∀ (l : List α) (x y : α), comp y x = false →
      bubble2L comp x y l =
        ((bubbleL comp x (bubbleL comp y l).1).1, (bubbleL comp x (bubbleL comp y l).1).2,
          (bubbleL comp y l).2) := by
  intro l
  induction l with
  | nil => intro x y _; rfl
  | cons z l ih =>
    intro x y hxy
    obtain ⟨-, h2, -⟩ := BubbleSort2_step_le hs x y z hxy
    simp only [bubble2L, bubbleL]
    rw [ih _ _ h2]
    cases hzx : comp z x with
    | true =>
      have hzy := hs.transNegTrans.no_loss x y z (Or.inr hxy) hzx
      simp only [hzy, hzx, if_true]
    | false =>
      cases hzy : comp z y with
      | true => simp only [hzx, if_true, Bool.false_eq_true, if_false]
      | false => simp only [hxy, Bool.false_eq_true, if_false]

/-- The inner loop of `BubbleSort` writes only the slots
`first + j - 1, ..., first + j + k - 2`. -/
theorem BubbleSortInner_frame (comp : α → α → Bool) (first : Nat) :
    ∀ (k j : Nat) (a : Nat → α) (x : α) (i : Nat),
      i < first + j - 1 ∨ first + j + k - 1 ≤ i → 1 ≤ j →
      (BubbleSortInner comp first k j a x).1 i = a i := by
  intro k
  induction k with
  | zero => intro j a x i _ _; rfl
  | succ k ih =>
    intro j a x i hi hj
    simp only [BubbleSortInner]
    rw [ih _ _ _ i (by omega) (by omega), Function.update_noteq (by omega)]

/-- The inner loop of `BubbleSort` stores the list `bubbleL` computes from the
elements it reads. -/
theorem BubbleSortInner_list (comp : α → α → Bool) (first : Nat) :
    ∀ (k j : Nat) (a : Nat → α) (x : α), 1 ≤ j →
      window (BubbleSortInner comp first k j a x).1 (first + j - 1) (first + j - 1 + k) =
          (bubbleL comp x (window a (first + j) (first + j + k))).1 ∧
        (BubbleSortInner comp first k j a x).2 =
          (bubbleL comp x (window a (first + j) (first + j + k))).2 := by
  intro k
  induction k with
  | zero =>
    intro j a x hj
    rw [window_empty _ (by omega), window_empty _ (by omega)]
    exact ⟨rfl, rfl⟩
  | succ k ih =>
    intro j a x hj
    have hw : window a (first + j) (first + j + (k + 1)) =
        a (first + j) :: window a (first + (j + 1)) (first + (j + 1) + k) := by
      rw [window_succ a (show first + j < first + j + (k + 1) by omega)]
      congr 2
      omega
    simp only [BubbleSortInner]
    generalize hv : (if comp (a (first + j)) x = true then a (first + j) else x) = v
    generalize hx1 : (if comp (a (first + j)) x = true then x else a (first + j)) = x1
    obtain ⟨i1, i2⟩ := ih (j + 1) (Function.update a (first + j - 1) v) x1 (by omega)
    have hfr := BubbleSortInner_frame comp first k (j + 1) (Function.update a (first + j - 1) v)
      x1 (first + j - 1) (Or.inl (by omega)) (by omega)
    rw [Function.update_same] at hfr
    have hc : window (Function.update a (first + j - 1) v) (first + (j + 1))
        (first + (j + 1) + k) = window a (first + (j + 1)) (first + (j + 1) + k) :=
      window_congr (fun i h1 h2 => Function.update_noteq (by omega) _ _)
    rw [hc] at i1 i2
    have e1 : first + (j + 1) - 1 = first + j - 1 + 1 := by omega
    rw [e1] at i1
    rw [hw, window_succ _ (show first + j - 1 < first + j - 1 + (k + 1) by omega), hfr]
    simp only [bubbleL, hv, hx1]
    refine ⟨?_, i2⟩
    congr 1
    rw [← i1]
    congr 1
    omega

/-- The inner loop of `BubbleSort2` stores the list `bubble2L` computes from
the elements it reads. -/
theorem BubbleSort2Inner_list (comp : α → α → Bool) (first : Nat) :
    ∀ (k j : Nat) (a : Nat → α) (x y : α), 2 ≤ j →
      window (BubbleSort2Inner comp first k j a x y).1 (first + j - 2) (first + j - 2 + k) =
          (bubble2L comp x y (window a (first + j) (first + j + k))).1 ∧
        (BubbleSort2Inner comp first k j a x y).2 =
          (bubble2L comp x y (window a (first + j) (first + j + k))).2 := by
  intro k
  induction k with
  | zero =>
    intro j a x y hj
    rw [window_empty _ (by omega), window_empty _ (by omega)]
    exact ⟨rfl, rfl⟩
  | succ k ih =>
    intro j a x y hj
    have hw : window a (first + j) (first + j + (k + 1)) =
        a (first + j) :: window a (first + (j + 1)) (first + (j + 1) + k) := by
      rw [window_succ a (show first + j < first + j + (k + 1) by omega)]
      congr 2
      omega
    simp only [BubbleSort2Inner]
    generalize hz : a (first + j) = z at hw ⊢
    generalize hv : (if comp z x = true then z else x) = v
    generalize hx1 : (if comp z x = true then x else if comp z y = true then z else y) = x1
    generalize hy1 : (if comp z y = true then y else z) = y1
    obtain ⟨i1, i2⟩ := ih (j + 1) (Function.update a (first + j - 2) v) x1 y1 (by omega)
    have hfr := BubbleSort2Inner_frame comp first k (j + 1)
      (Function.update a (first + j - 2) v) x1 y1 (first + j - 2) (Or.inl (by omega)) (by omega)
    rw [Function.update_same] at hfr
    have hc : window (Function.update a (first + j - 2) v) (first + (j + 1))
        (first + (j + 1) + k) = window a (first + (j + 1)) (first + (j + 1) + k) :=
      window_congr (fun i h1 h2 => Function.update_noteq (by omega) _ _)
    rw [hc] at i1 i2
    have e1 : first + (j + 1) - 2 = first + j - 2 + 1 := by omega
    rw [e1] at i1
    rw [hw, window_succ _ (show first + j - 2 < first + j - 2 + (k + 1) by omega), hfr]
    simp only [bubble2L, hv, hx1, hy1]
    refine ⟨?_, i2⟩
    congr 1
    rw [← i1]
    congr 1
    omega

/-! ## BubbleSort2 against BubbleSort -/

/-- Two storages that agree outside a range and hold the same list in it are
equal. -/
theorem ext_of_window {a b : Nat → α} (first last : Nat)
    (hout : ∀ p, p < first ∨ last ≤ p → a p = b p)
    (hw : window a first last = window b first last) : a = b := by
  funext p
  by_cases hp : first ≤ p ∧ p < last
  · have h1 : p - first < (window a first last).length := by rw [window_length]; omega
    have h2 : p - first < (window b first last).length := by rw [window_length]; omega
    have e1 := window_getElem a first last (p - first) h1
    have e2 := window_getElem b first last (p - first) h2
    have e3 : first + (p - first) = p := by omega
    rw [e3] at e1 e2
    rw [← e1, ← e2]
    simp only [hw]
  · exact hout p (by omega)

theorem BubbleSortPass_one (comp : α → α → Bool) (first : Nat) (a : Nat → α) :
    BubbleSortPass comp first 1 a = a := by
  simp only [BubbleSortPass, Nat.sub_self, BubbleSortInner, Nat.add_zero, Nat.add_sub_cancel,
    Function.update_eq_self]

/-- The outer loop of `BubbleSort` runs one pass and goes on with the window
shorter by one. -/
theorem BubbleSortLoop_pass (comp : α → α → Bool) (first i : Nat) (a : Nat → α) :
    BubbleSortLoop comp first (i + 1) a =
      BubbleSortLoop comp first i (BubbleSortPass comp first (i + 1) a) := by
  match i with
  | 0 => rw [BubbleSortPass_one]; rfl
  | i + 1 => rfl

theorem BubbleSortPass_frame (comp : α → α → Bool) (first i : Nat) (a : Nat → α) (p : Nat)
    (hp : p < first ∨ first + (i + 1) ≤ p) : BubbleSortPass comp first (i + 1) a p = a p := by
  simp only [BubbleSortPass, Nat.add_sub_cancel]
  rw [Function.update_noteq (by omega)]
  exact BubbleSortInner_frame comp first i 1 a _ p (by omega) (le_refl _)

/-- One pass of `BubbleSort` over a window: the window then holds what the
inner loop stored, followed by its final `x`. -/
theorem BubbleSortPass_window (comp : α → α → Bool) (first i : Nat) (a : Nat → α) :
    window (BubbleSortPass comp first (i + 1) a) first (first + (i + 1)) =
      (bubbleL comp (a first) (window a (first + 1) (first + 1 + i))).1 ++
        [(bubbleL comp (a first) (window a (first + 1) (first + 1 + i))).2] := by
  obtain ⟨k1, k2⟩ := BubbleSortInner_list comp first i 1 a (a first) (le_refl _)
  have e : first + 1 - 1 = first := by omega
  rw [e] at k1
  rw [show first + (i + 1) = first + i + 1 by omega, window_last _ (Nat.le_add_right first i)]
  simp only [BubbleSortPass, Nat.add_sub_cancel, Nat.add_zero]
  have e2 : first + (i + 1) - 1 = first + i := by omega
  rw [e2, Function.update_same, ← k1, ← k2]
  congr 1
  exact window_congr (fun p h1 h2 => Function.update_noteq (by omega) _ _)

theorem BubbleSort2Pass_frame (comp : α → α → Bool) (first i : Nat) (a : Nat → α) (p : Nat)
    (hp : p < first ∨ first + (i + 2) ≤ p) : BubbleSort2Pass comp first (i + 2) a p = a p := by
  rw [BubbleSort2Pass_eq, Function.update_noteq (by omega), Function.update_noteq (by omega)]
  exact BubbleSort2Inner_frame comp first i 2 a _ _ p (by omega) (le_refl _)

/-- One pass of `BubbleSort2` over a window: the window then holds what the
inner loop stored, followed by its final `x` and `y`. -/
theorem BubbleSort2Pass_window (comp : α → α → Bool) (first i : Nat) (a : Nat → α) :
    window (BubbleSort2Pass comp first (i + 2) a) first (first + (i + 2)) =
      (bubble2L comp (if comp (a (first + 1)) (a first) then a (first + 1) else a first)
          (if comp (a (first + 1)) (a first) then a first else a (first + 1))
          (window a (first + 2) (first + 2 + i))).1 ++
        [(bubble2L comp (if comp (a (first + 1)) (a first) then a (first + 1) else a first)
            (if comp (a (first + 1)) (a first) then a first else a (first + 1))
            (window a (first + 2) (first + 2 + i))).2.1,
          (bubble2L comp (if comp (a (first + 1)) (a first) then a (first + 1) else a first)
            (if comp (a (first + 1)) (a first) then a first else a (first + 1))
            (window a (first + 2) (first + 2 + i))).2.2] := by
  rw [BubbleSort2Pass_eq]
  generalize (if comp (a (first + 1)) (a first) then a (first + 1) else a first) = x
  generalize (if comp (a (first + 1)) (a first) then a first else a (first + 1)) = y
  obtain ⟨k1, k2⟩ := BubbleSort2Inner_list comp first i 2 a x y (le_refl _)
  have e : first + 2 - 2 = first := by omega
  rw [e] at k1
  rw [← k1, ← k2]
  generalize BubbleSort2Inner comp first i 2 a x y = r
  obtain ⟨a1, x1, y1⟩ := r
  simp only
  rw [show first + (i + 2) = first + i + 1 + 1 by omega,
    window_last _ (show first ≤ first + i + 1 by omega),
    window_last _ (show first ≤ first + i by omega)]
  rw [Function.update_same, Function.update_noteq (by omega), Function.update_same,
    List.append_assoc]
  congr 1
  exact window_congr (fun k _ h2 => by
    rw [Function.update_noteq (by omega), Function.update_noteq (by omega)])

/-- Under a strict weak order one pass of `BubbleSort2` over a window leaves
the storage that two passes of `BubbleSort` leave, the second over the window
shorter by one. -/
theorem BubbleSort_two_passes {comp : α → α → Bool} (hs : StrictWeakOrder comp)
    (first i : Nat) (a : Nat → α) :
    BubbleSortPass comp first (i + 1) (BubbleSortPass comp first (i + 1 + 1) a) =
      BubbleSort2Pass comp first (i + 2) a := by
  apply ext_of_window first (first + (i + 2))
  · intro p hp
    rw [BubbleSortPass_frame comp first i _ p (by omega),
      BubbleSortPass_frame comp first (i + 1) _ p (by omega),
      BubbleSort2Pass_frame comp first i a p hp]
  · generalize hb : BubbleSortPass comp first (i + 1 + 1) a = b
    have wb := BubbleSortPass_window comp first (i + 1) a
    rw [hb] at wb
    have wa : window a (first + 1) (first + 1 + (i + 1)) =
        a (first + 1) :: window a (first + 2) (first + 2 + i) := by
      rw [window_succ a (show first + 1 < first + 1 + (i + 1) by omega)]
      congr 2
      omega
    rw [wa] at wb
    simp only [bubbleL] at wb
    rw [BubbleSort2Pass_window]
    generalize hx : (if comp (a (first + 1)) (a first) = true then a (first + 1) else a first) = x
      at wb ⊢
    generalize hy : (if comp (a (first + 1)) (a first) = true then a first else a (first + 1)) = y
      at wb ⊢
    have hxy : comp y x = false := by
      subst hx; subst hy
      cases h : comp (a (first + 1)) (a first)
      · simp [h]
      · simp only [if_true]; exact hs.asymm _ _ h
    rw [bubble2L_eq hs _ x y hxy]
    generalize window a (first + 2) (first + 2 + i) = t at wb ⊢
    have hlen := bubbleL_length comp t y
    generalize bubbleL comp y t = r1 at wb hlen ⊢
    obtain ⟨o1, c1⟩ := r1
    simp only at wb hlen ⊢
    -- split the window of `b` into its first element, its middle and its last element
    have wb2 : window b first (first + (i + 1 + 1)) =
        b first :: (window b (first + 1) (first + 1 + i) ++ [b (first + 1 + i)]) := by
      rw [window_succ b (show first < first + (i + 1 + 1) by omega),
        show first + (i + 1 + 1) = first + 1 + i + 1 by omega,
        window_last b (show first + 1 ≤ first + 1 + i by omega)]
    rw [wb2, List.cons_append, List.cons.injEq] at wb
    obtain ⟨hb0, hrest⟩ := wb
    have hl2 : (window b (first + 1) (first + 1 + i)).length = o1.length := by
      rw [window_length, hlen]
      have := congrArg List.length hrest
      simp only [List.length_append, List.length_singleton, window_length] at this
      omega
    obtain ⟨hmid, hlast⟩ := List.append_inj hrest hl2
    rw [List.cons.injEq] at hlast
    have wp := BubbleSortPass_window comp first i b
    rw [hb0, hmid] at wp
    rw [show first + (i + 2) = first + (i + 1) + 1 by omega,
      window_last _ (show first ≤ first + (i + 1) by omega), wp,
      BubbleSortPass_frame comp first i b (first + (i + 1)) (Or.inr (le_refl _)),
      show first + (i + 1) = first + 1 + i by omega, hlast.1, List.append_assoc]
    rfl

/-- Under a strict weak order the outer loops of `BubbleSort` and of
`BubbleSort2` leave the same storage. -/
theorem BubbleSortLoop_eq {comp : α → α → Bool} (hs : StrictWeakOrder comp) (first : Nat) :
    ∀ (n : Nat) (a : Nat → α), BubbleSortLoop comp first n a = BubbleSort2Loop comp first n a := by
  intro n
  induction n using Nat.strong_induction_on with
  | _ n ih =>
    intro a
    match n, ih with
    | 0, _ => rfl
    | 1, _ => rfl
    | i + 2, ih =>
      rw [BubbleSortLoop_pass, BubbleSortLoop_pass, BubbleSort_two_passes hs, ih i (by omega),
        BubbleSort2Loop_pass]

/-! ## Stability of the bubble sorts -/

theorem keyLess_strictWeakOrder : StrictWeakOrder keyLess := by
  constructor
  · intro x
    simp [keyLess]
  · intro x y z h1 h2
    simp only [keyLess, decide_eq_true_eq] at *
    omega
  · intro x y z h1 h2 h3 h4
    simp only [keyLess, decide_eq_false_iff_not] at *
    constructor <;> omega

/-- Two elements of which one is less than the other are not both equivalent
to the same element. -/
theorem equivTo_not_both {comp : α → α → Bool} (hs : StrictWeakOrder comp) {x y v : α}
    (h : comp y x = true) (hx : equivTo comp v x = true) : equivTo comp v y = false := by
  cases hy : equivTo comp v y with
  | false => rfl
  | true =>
    simp only [equivTo, Bool.and_eq_true, Bool.not_eq_true'] at hx hy
    have := hs.neg_trans _ _ _ hy.2 hx.1
    rw [h] at this
    exact Bool.noConfusion this

/-- The inner loop of `BubbleSort` keeps the order of the elements equivalent
to any given one. -/
theorem bubbleL_stable {comp : α → α → Bool} (hs : StrictWeakOrder comp) (v : α) :
    ∀ (l : List α) (x : α),
      ((bubbleL comp x l).1 ++ [(bubbleL comp x l).2]).filter (equivTo comp v) =
        (x :: l).filter (equivTo comp v) := by
  intro l
  induction l with
  | nil => intro x; rfl
  | cons y l ih =>
    intro x
    simp only [bubbleL]
    cases h : comp y x with
    | true =>
      simp only [if_true, List.cons_append]
      rw [List.filter_cons, ih x]
      cases hx : equivTo comp v x with
      | true =>
        have hy := equivTo_not_both hs h hx
        simp [List.filter_cons, hx, hy]
      | false =>
        simp [List.filter_cons, hx]
    | false =>
      simp only [Bool.false_eq_true, if_false, List.cons_append]
      rw [List.filter_cons, ih y]
      exact (List.filter_cons (x := x)).symm

theorem BubbleSortLoop_frame (comp : α → α → Bool) (first : Nat) :
    ∀ (n : Nat) (a : Nat → α) (p : Nat), p < first ∨ first + n ≤ p →
      BubbleSortLoop comp first n a p = a p := by
  intro n
  induction n with
  | zero => intro a p _; rfl
  | succ n ih =>
    intro a p hp
    rw [BubbleSortLoop_pass, ih _ p (by omega), BubbleSortPass_frame comp first n a p hp]

/-- The outer loop of `BubbleSort` keeps the order of the elements equivalent
to any given one. -/
theorem BubbleSortLoop_stable {comp : α → α → Bool} (hs : StrictWeakOrder comp) (first : Nat)
    (v : α) :
    ∀ (n : Nat) (a : Nat → α),
      (window (BubbleSortLoop comp first n a) first (first + n)).filter (equivTo comp v) =
        (window a first (first + n)).filter (equivTo comp v) := by
  intro n
  induction n with
  | zero =>
    intro a
    rw [window_empty _ (Nat.le_of_eq (Nat.add_zero first)),
      window_empty _ (Nat.le_of_eq (Nat.add_zero first))]
  | succ n ih =>
    intro a
    rw [BubbleSortLoop_pass, show first + (n + 1) = first + n + 1 by omega,
      window_last _ (Nat.le_add_right first n), List.filter_append, ih,
      BubbleSortLoop_frame comp first n _ _ (Or.inr (le_refl _)), ← List.filter_append,
      ← window_last _ (Nat.le_add_right first n), show first + n + 1 = first + (n + 1) by omega,
      BubbleSortPass_window, bubbleL_stable hs v,
      window_succ a (show first < first + (n + 1) by omega)]
    congr 3
    omega

end nanosort_detail

/-! ## The properties of nanosort -/

/-- C1: for a strict-weak-order comparator and any range, `nanosort` returns
(given fuel above the range size) and leaves the range ordered: no later
element compares less than an earlier one. -/
theorem nanosort_ordered {α : Type} {comp : α → α → Bool} (hs : StrictWeakOrder comp)
    (a : Nat → α) (first last fuel : Nat) (hfl : first ≤ last) (hfuel : last - first < fuel) :
    ∃ a', nanosort comp fuel a first last = some a' ∧ Ordered comp a' first last := by
  obtain ⟨a', h⟩ := sort_terminates hs.irrefl fuel a first last hfuel
  exact ⟨a', h, (ordered_iff_pairwise comp a' first last).2
    (sort_sorted hs fuel a first last a' hfl h)⟩

theorem nanosort_ordered_witness :
    StrictWeakOrder Less ∧ 0 ≤ 20 ∧ 20 - 0 < 21 ∧
      ∃ a', nanosort Less 21 (ofList descending20 0) 0 20 = some a' ∧ Ordered Less a' 0 20 :=
  ⟨Less_strictWeakOrder, by decide, by decide,
    nanosort_ordered Less_strictWeakOrder (ofList descending20 0) 0 20 21 (by decide)
      (by decide)⟩

/-- C2: for a strict-weak-order comparator and any range, `nanosort` returns
and the range then holds a permutation of what it held before: every value
occurs as many times as in the input, and nothing outside the range changed. -/
theorem nanosort_permutation {α : Type} [DecidableEq α] {comp : α → α → Bool}
    (hs : StrictWeakOrder comp) (a : Nat → α) (first last fuel : Nat) (hfl : first ≤ last)
    (hfuel : last - first < fuel) :
    ∃ a', nanosort comp fuel a first last = some a' ∧
      (window a' first last).Perm (window a first last) ∧
      (∀ x, (window a' first last).count x = (window a first last).count x) ∧
      ∀ i, i < first ∨ last ≤ i → a' i = a i := by
  obtain ⟨a', h⟩ := sort_terminates hs.irrefl fuel a first last hfuel
  have hp := sort_rangePerm hs.transNegTrans fuel a first last a' hfl h
  exact ⟨a', h, hp.2, fun x => hp.2.count_eq x, hp.1⟩

theorem nanosort_permutation_witness :
    StrictWeakOrder Less ∧ 0 ≤ 20 ∧ 20 - 0 < 21 ∧
      ∃ a', nanosort Less 21 (ofList descending20 0) 0 20 = some a' ∧
        (window a' 0 20).Perm (window (ofList descending20 0) 0 20) ∧
        (∀ x, (window a' 0 20).count x = (window (ofList descending20 0) 0 20).count x) ∧
        ∀ i, i < 0 ∨ 20 ≤ i → a' i = ofList descending20 0 i :=
  ⟨Less_strictWeakOrder, by decide, by decide,
    nanosort_permutation Less_strictWeakOrder (ofList descending20 0) 0 20 21 (by decide)
      (by decide)⟩

/-- C3, refuted as stated: with the constant-true comparator, `nanosort` on a
range of 17 elements returns for no amount of fuel. -/
theorem nanosort_constTrue_diverges :
    ¬ ∃ fuel a', nanosort constTrue fuel (ofList (List.replicate 17 0) 0) 0 17 = some a' := by
  rintro ⟨fuel, a', h⟩
  have h2 := sort_constTrue_none fuel (ofList (List.replicate 17 0) 0)
  unfold nanosort at h
  rw [h2] at h
  exact Option.noConfusion h

/-- C3, amended: for every irreflexive comparator (strict weak order or not)
and every range, `nanosort` returns once the fuel exceeds the range size, and
one pass of the driver loop over a non-empty range leaves both the range
before `mid` and the range from `midr` strictly smaller. -/
theorem nanosort_terminates_of_irrefl {α : Type} {comp : α → α → Bool}
    (hirr : ∀ x, comp x x = false) (a : Nat → α) (first last fuel : Nat)
    (hfuel : last - first < fuel) :
    (∃ a', nanosort comp fuel a first last = some a') ∧
      (first < last →
        (sortStep comp a first last).2.1 - first < last - first ∧
        last - (sortStep comp a first last).2.2 < last - first) := by
  refine ⟨sort_terminates hirr fuel a first last hfuel, fun h => ?_⟩
  have h1 := sortStep_left_progress comp a h
  have h2 := sortStep_right_progress comp a h (hirr _)
  have h3 := (sortStep_spec comp a h).1
  constructor <;> omega

theorem nanosort_terminates_of_irrefl_witness :
    (∀ x, notEqual x x = false) ∧ 20 - 0 < 21 ∧
      ((∃ a', nanosort notEqual 21 (ofList descending20 0) 0 20 = some a') ∧
        (0 < 20 →
          (sortStep notEqual (ofList descending20 0) 0 20).2.1 - 0 < 20 - 0 ∧
          20 - (sortStep notEqual (ofList descending20 0) 0 20).2.2 < 20 - 0)) :=
  ⟨notEqual_irrefl, by decide,
    nanosort_terminates_of_irrefl notEqual_irrefl (ofList descending20 0) 0 20 21 (by decide)⟩

set_option maxRecDepth 100000 in
/-- C4, refuted as stated: with the comparator `notWeak`, which is not a strict
weak order, `nanosort` turns `[0, 1, 2]` into `[2, 0, 2]`: the value `1` is
lost and the value `2` is duplicated by `BubbleSort2`. -/
theorem nanosort_notWeak_loses_element :
    ∃ a', nanosort notWeak 1 (ofList [0, 1, 2] 0) 0 3 = some a' ∧
      a' = BubbleSort2 notWeak (ofList [0, 1, 2] 0) 0 3 ∧
      window a' 0 3 = [2, 0, 2] ∧
      ¬ (window a' 0 3).Perm (window (ofList [0, 1, 2] 0) 0 3) := by
  refine ⟨BubbleSort2 notWeak (ofList [0, 1, 2] 0) 0 3, rfl, rfl, by decide, ?_⟩
  have h1 : window (BubbleSort2 notWeak (ofList [0, 1, 2] 0) 0 3) 0 3 = [2, 0, 2] := by decide
  have h2 : window (ofList [0, 1, 2] 0) 0 3 = [0, 1, 2] := by decide
  rw [h1, h2]
  decide

/-- C4, amended: `partition` and `partition_rev` rearrange their range for
every comparator; `BubbleSort2`, and with it every result of `nanosort`,
rearranges the range (same elements with the same multiplicities, nothing
outside changed) for every comparator that is transitive and negatively
transitive, which need not be a strict weak order. -/
theorem nanosort_permutation_of_transNegTrans {α : Type} {comp : α → α → Bool}
    (hc : TransNegTrans comp) (a a' : Nat → α) (first last fuel : Nat) (hfl : first ≤ last)
    (h : nanosort comp fuel a first last = some a') :
    RangePerm a a' first last ∧
      RangePerm a (BubbleSort2 comp a first last) first last ∧
      ∀ (c : α → α → Bool) (pivot : α),
        RangePerm a (partition c pivot a first last).1 first last ∧
        RangePerm a (partition_rev c pivot a first last).1 first last :=
  ⟨sort_rangePerm hc fuel a first last a' hfl h, BubbleSort2_rangePerm hc a hfl,
    fun c pivot => ⟨(partition_spec c pivot a hfl).2.2.2.2,
      (partition_rev_spec c pivot a hfl).2.2.2.2⟩⟩

theorem nanosort_permutation_of_transNegTrans_witness :
    TransNegTrans lessEq ∧ 0 ≤ 3 ∧
      nanosort lessEq 1 (ofList [2, 1, 3] 0) 0 3 =
        some (BubbleSort2 lessEq (ofList [2, 1, 3] 0) 0 3) ∧
      (RangePerm (ofList [2, 1, 3] 0) (BubbleSort2 lessEq (ofList [2, 1, 3] 0) 0 3) 0 3 ∧
        RangePerm (ofList [2, 1, 3] 0) (BubbleSort2 lessEq (ofList [2, 1, 3] 0) 0 3) 0 3 ∧
        ∀ (c : Nat → Nat → Bool) (pivot : Nat),
          RangePerm (ofList [2, 1, 3] 0) (partition c pivot (ofList [2, 1, 3] 0) 0 3).1 0 3 ∧
          RangePerm (ofList [2, 1, 3] 0)
            (partition_rev c pivot (ofList [2, 1, 3] 0) 0 3).1 0 3) :=
  ⟨lessEq_transNegTrans, by decide, rfl,
    nanosort_permutation_of_transNegTrans lessEq_transNegTrans (ofList [2, 1, 3] 0)
      (BubbleSort2 lessEq (ofList [2, 1, 3] 0) 0 3) 0 3 1 (by decide) rfl⟩

/-- C5: for a strict-weak-order comparator and a range of more than 16
elements, one pass of the driver loop of `sort` yields boundaries
`first ≤ mid ≤ midr ≤ last`; the two ranges it goes on with, `[first, mid)`
and `[midr, last)` (one by a recursive call, the other by continuing the loop),
lie inside `[first, last)` and are both strictly smaller than it; and `sort`
returns a result whenever the fuel exceeds the range size. -/
theorem sort_iteration_shrinks {α : Type} {comp : α → α → Bool} (hs : StrictWeakOrder comp)
    (a : Nat → α) (first last : Nat) (h : kSmallSortThreshold < last - first) :
    first ≤ (sortStep comp a first last).2.1 ∧
      (sortStep comp a first last).2.1 ≤ (sortStep comp a first last).2.2 ∧
      (sortStep comp a first last).2.2 ≤ last ∧
      (sortStep comp a first last).2.1 - first < last - first ∧
      last - (sortStep comp a first last).2.2 < last - first ∧
      (∀ fuel, sort comp (fuel + 1) a first last =
        if (sortStep comp a first last).2.1 - first ≤ last - (sortStep comp a first last).2.2 then
          (sort comp fuel (sortStep comp a first last).1 first
            (sortStep comp a first last).2.1).bind
            fun a3 => sort comp fuel a3 (sortStep comp a first last).2.2 last
        else
          (sort comp fuel (sortStep comp a first last).1 (sortStep comp a first last).2.2
            last).bind
            fun a3 => sort comp fuel a3 first (sortStep comp a first last).2.1) ∧
      ∀ fuel, last - first < fuel → ∃ a', sort comp fuel a first last = some a' := by
  have hlt : first < last := by
    have := Nat.zero_le kSmallSortThreshold
    omega
  have h1 := sortStep_left_progress comp a hlt
  have h2 := sortStep_right_progress comp a hlt (hs.irrefl _)
  obtain ⟨s1, s2, s3, -⟩ := sortStep_spec comp a hlt
  refine ⟨s1, s2, s3, by omega, by omega, fun fuel => sort_large comp fuel a h,
    fun fuel hf => sort_terminates hs.irrefl fuel a first last hf⟩

theorem sort_iteration_shrinks_witness :
    StrictWeakOrder Less ∧ kSmallSortThreshold < 20 - 0 ∧
      (sortStep Less (ofList descending20 0) 0 20).2.1 - 0 < 20 - 0 ∧
      20 - (sortStep Less (ofList descending20 0) 0 20).2.2 < 20 - 0 ∧
      ∀ fuel, 20 - 0 < fuel → ∃ a', sort Less fuel (ofList descending20 0) 0 20 = some a' :=
  have h := sort_iteration_shrinks Less_strictWeakOrder (ofList descending20 0) 0 20 (by decide)
  ⟨Less_strictWeakOrder, by decide, h.2.2.2.1, h.2.2.2.2.1, h.2.2.2.2.2.2⟩

/-- C6: for a strict-weak-order comparator and a range of `n ≥ 1` elements,
`sort` returns and the greatest nesting depth of its recursive calls, the
top-level call counting as depth 0, is at most `⌊log2 n⌋`, whatever the
contents of the range. -/
theorem sort_depth_le_log2 {α : Type} {comp : α → α → Bool} (hs : StrictWeakOrder comp)
    (a : Nat → α) (first last fuel : Nat) (hn : 1 ≤ last - first)
    (hfuel : last - first < fuel) :
    ∃ r, sortDepth comp fuel a first last = some r ∧
      nanosort comp fuel a first last = some r.1 ∧ r.2 ≤ Nat.log2 (last - first) := by
  obtain ⟨a', h⟩ := sort_terminates hs.irrefl fuel a first last hfuel
  have hf := sortDepth_fst comp fuel a first last
  rw [h] at hf
  cases hd : sortDepth comp fuel a first last with
  | none => rw [hd] at hf; exact Option.noConfusion hf
  | some r =>
    rw [hd] at hf
    have hr : r.1 = a' := by simpa using hf
    refine ⟨r, rfl, ?_, ?_⟩
    · rw [hr]; exact h
    · rcases sortDepth_bound comp fuel a first last r hd with h0 | h0
      · omega
      · exact (Nat.le_log2 (by omega)).2 h0

theorem sort_depth_le_log2_witness :
    StrictWeakOrder Less ∧ 1 ≤ 20 - 0 ∧ 20 - 0 < 21 ∧
      ∃ r, sortDepth Less 21 (ofList descending20 0) 0 20 = some r ∧
        nanosort Less 21 (ofList descending20 0) 0 20 = some r.1 ∧ r.2 ≤ Nat.log2 (20 - 0) :=
  ⟨Less_strictWeakOrder, by decide, by decide,
    sort_depth_le_log2 Less_strictWeakOrder (ofList descending20 0) 0 20 21 (by decide)
      (by decide)⟩

/-- C7: for every comparator, pivot and range, `partition` returns a
boundary `b` with `first ≤ b ≤ last`; every element before `b` compares less
than the pivot and no element from `b` on does. -/
theorem partition_boundary {α : Type} (comp : α → α → Bool) (pivot : α) (a : Nat → α)
    (first last : Nat) (h : first ≤ last) :
    first ≤ (partition comp pivot a first last).2 ∧
      (partition comp pivot a first last).2 ≤ last ∧
      (∀ i, first ≤ i → i < (partition comp pivot a first last).2 →
        comp ((partition comp pivot a first last).1 i) pivot = true) ∧
      ∀ i, (partition comp pivot a first last).2 ≤ i → i < last →
        comp ((partition comp pivot a first last).1 i) pivot = false :=
  have hp := partition_spec comp pivot a h
  ⟨hp.1, hp.2.1, hp.2.2.1, hp.2.2.2.1⟩

theorem partition_boundary_witness :
    0 ≤ 5 ∧
      (0 ≤ (partition constTrue 3 (ofList [4, 1, 5, 2, 3] 0) 0 5).2 ∧
      (partition constTrue 3 (ofList [4, 1, 5, 2, 3] 0) 0 5).2 ≤ 5 ∧
      (∀ i, 0 ≤ i → i < (partition constTrue 3 (ofList [4, 1, 5, 2, 3] 0) 0 5).2 →
        constTrue ((partition constTrue 3 (ofList [4, 1, 5, 2, 3] 0) 0 5).1 i) 3 = true) ∧
      ∀ i, (partition constTrue 3 (ofList [4, 1, 5, 2, 3] 0) 0 5).2 ≤ i → i < 5 →
        constTrue ((partition constTrue 3 (ofList [4, 1, 5, 2, 3] 0) 0 5).1 i) 3 = false) :=
  ⟨by decide, partition_boundary constTrue 3 (ofList [4, 1, 5, 2, 3] 0) 0 5 (by decide)⟩

/-- C8: for every comparator, pivot and range, `partition_rev` returns a
boundary `b` with `first ≤ b ≤ last`; the pivot compares less than no element
before `b` and less than every element from `b` on. -/
theorem partition_rev_boundary {α : Type} (comp : α → α → Bool) (pivot : α) (a : Nat → α)
    (first last : Nat) (h : first ≤ last) :
    first ≤ (partition_rev comp pivot a first last).2 ∧
      (partition_rev comp pivot a first last).2 ≤ last ∧
      (∀ i, first ≤ i → i < (partition_rev comp pivot a first last).2 →
        comp pivot ((partition_rev comp pivot a first last).1 i) = false) ∧
      ∀ i, (partition_rev comp pivot a first last).2 ≤ i → i < last →
        comp pivot ((partition_rev comp pivot a first last).1 i) = true :=
  have hp := partition_rev_spec comp pivot a h
  ⟨hp.1, hp.2.1, hp.2.2.1, hp.2.2.2.1⟩

theorem partition_rev_boundary_witness :
    0 ≤ 5 ∧
      (0 ≤ (partition_rev lessEq 3 (ofList [4, 1, 5, 2, 3] 0) 0 5).2 ∧
      (partition_rev lessEq 3 (ofList [4, 1, 5, 2, 3] 0) 0 5).2 ≤ 5 ∧
      (∀ i, 0 ≤ i → i < (partition_rev lessEq 3 (ofList [4, 1, 5, 2, 3] 0) 0 5).2 →
        lessEq 3 ((partition_rev lessEq 3 (ofList [4, 1, 5, 2, 3] 0) 0 5).1 i) = false) ∧
      ∀ i, (partition_rev lessEq 3 (ofList [4, 1, 5, 2, 3] 0) 0 5).2 ≤ i → i < 5 →
        lessEq 3 ((partition_rev lessEq 3 (ofList [4, 1, 5, 2, 3] 0) 0 5).1 i) = true) :=
  ⟨by decide, partition_rev_boundary lessEq 3 (ofList [4, 1, 5, 2, 3] 0) 0 5 (by decide)⟩

set_option maxRecDepth 100000 in
/-- C9, the code against its comment "Return median of 5 elements": on the
ascending range `1, 2, ..., 17` the five samples are `1, 5, 9, 13, 17` and
`median5` returns `13`, the fourth smallest; only two of the five samples
are not less than it. -/
theorem median5_returns_fourth :
    [ofList (List.range' 1 17) 0 0, ofList (List.range' 1 17) 0 4,
        ofList (List.range' 1 17) 0 8, ofList (List.range' 1 17) 0 12,
        ofList (List.range' 1 17) 0 16] = [1, 5, 9, 13, 17] ∧
      median5 Less (ofList (List.range' 1 17) 0) 0 17 = 13 ∧
      median5Net Less 1 5 9 13 17 = 13 ∧
      ([1, 5, 9, 13, 17].filter fun x => !Less x 13).length = 2 := by
  decide

/-- C10: for a strict-weak-order comparator, `nanosort` on an already ordered
range returns, at every position of the range, an element equivalent to the
one that was there; when equivalent values are equal the storage is returned
unchanged, and then sorting the result of a sort gives that result again. -/
theorem nanosort_idempotent {α : Type} {comp : α → α → Bool} (hs : StrictWeakOrder comp)
    (first last fuel : Nat) (hfl : first ≤ last) (hfuel : last - first < fuel) :
    (∀ a, Ordered comp a first last →
      ∃ a', nanosort comp fuel a first last = some a' ∧
        (∀ i, first ≤ i → i < last → comp (a' i) (a i) = false ∧ comp (a i) (a' i) = false) ∧
        ((∀ x y, comp x y = false → comp y x = false → x = y) → a' = a)) ∧
      ((∀ x y, comp x y = false → comp y x = false → x = y) →
        ∀ b, ∃ b', nanosort comp fuel b first last = some b' ∧
          nanosort comp fuel b' first last = some b') := by
  have part1 : ∀ a, Ordered comp a first last →
      ∃ a', nanosort comp fuel a first last = some a' ∧
        (∀ i, first ≤ i → i < last → comp (a' i) (a i) = false ∧ comp (a i) (a' i) = false) ∧
        ((∀ x y, comp x y = false → comp y x = false → x = y) → a' = a) := by
    intro a ha
    obtain ⟨a', h⟩ := sort_terminates hs.irrefl fuel a first last hfuel
    have k := sort_ordered_equiv hs a a' first last fuel hfl ha h
    exact ⟨a', h, k.1, k.2⟩
  refine ⟨part1, fun htot b => ?_⟩
  obtain ⟨b', h⟩ := sort_terminates hs.irrefl fuel b first last hfuel
  have hb := (ordered_iff_pairwise comp b' first last).2 (sort_sorted hs fuel b first last b' hfl h)
  obtain ⟨b'', h2, -, h3⟩ := part1 b' hb
  rw [h3 htot] at h2
  exact ⟨b', h, h2⟩

theorem nanosort_idempotent_witness :
    StrictWeakOrder Less ∧ 0 ≤ 20 ∧ 20 - 0 < 21 ∧
      Ordered Less (ofList (List.range' 1 20) 0) 0 20 ∧
      nanosort Less 21 (ofList (List.range' 1 20) 0) 0 20 =
        some (ofList (List.range' 1 20) 0) := by
  have h := nanosort_idempotent Less_strictWeakOrder 0 20 21 (by decide) (by decide)
  obtain ⟨a', e, -, k⟩ := h.1 _ ascending20_ordered
  rw [k Less_antisymm] at e
  exact ⟨Less_strictWeakOrder, by decide, by decide, ascending20_ordered, e⟩

/-- C11: for every comparator, `nanosort` on a range of no or one element
returns the storage exactly as it was, and so does `BubbleSort2`; the
counter of comparator evaluations is not advanced. -/
theorem nanosort_short_noop {α : Type} (comp : α → α → Bool) (a : Nat → α)
    (first last fuel c : Nat) (h : last - first ≤ 1) (hfuel : 0 < fuel) :
    nanosort comp fuel a first last = some a ∧
      BubbleSort2 comp a first last = a ∧
      sortCount comp fuel a first last c = some (a, c) := by
  obtain ⟨fuel, rfl⟩ : ∃ f, fuel = f + 1 := ⟨fuel - 1, by omega⟩
  have hk : last - first ≤ kSmallSortThreshold := by
    unfold kSmallSortThreshold
    omega
  have hb : BubbleSort2 comp a first last = a := BubbleSort2Loop_short comp first _ a h
  refine ⟨?_, hb, ?_⟩
  · unfold nanosort
    rw [sort_small comp fuel a hk, hb]
  · rw [sortCount_small comp fuel a c hk, BubbleSort2LoopCount_short comp first _ a c h]

theorem nanosort_short_noop_witness :
    1 - 0 ≤ 1 ∧ 0 < 1 ∧
      (nanosort constTrue 1 (ofList [7] 0) 0 1 = some (ofList [7] 0) ∧
        BubbleSort2 constTrue (ofList [7] 0) 0 1 = ofList [7] 0 ∧
        sortCount constTrue 1 (ofList [7] 0) 0 1 0 = some (ofList [7] 0, 0)) :=
  ⟨by decide, by decide, nanosort_short_noop constTrue (ofList [7] 0) 0 1 1 0 (by decide)
    (by decide)⟩

/-- C12: for a strict-weak-order comparator and a range of more than 16
elements on which `partition` returns a skewed boundary `mid`, the pass of the
driver loop calls `partition_rev` on `[mid, last)` to get `midr`; then every
element of `[first, mid)` is less than the pivot, every element of
`[mid, midr)` is equivalent to it and every element of `[midr, last)` is
greater; `sort` returns, its result has the elements of `[mid, midr)` where
the pass left them, and the positions of the range at which the result holds
an element equivalent to the pivot are exactly those of `[mid, midr)`. -/
theorem sort_skew_equal_region {α : Type} {comp : α → α → Bool} (hs : StrictWeakOrder comp)
    (a : Nat → α) (first last fuel : Nat) (h : kSmallSortThreshold < last - first)
    (hskew : (partition comp (median5 comp a first last) a first last).2 - first ≤
      (last - first) >>> 3)
    (hfuel : last - first < fuel) :
    (sortStep comp a first last).2.1 =
        (partition comp (median5 comp a first last) a first last).2 ∧
      ((sortStep comp a first last).1, (sortStep comp a first last).2.2) =
        partition_rev comp (median5 comp a first last)
          (partition comp (median5 comp a first last) a first last).1
          (partition comp (median5 comp a first last) a first last).2 last ∧
      (∀ i, first ≤ i → i < (sortStep comp a first last).2.1 →
        comp ((sortStep comp a first last).1 i) (median5 comp a first last) = true) ∧
      (∀ i, (sortStep comp a first last).2.1 ≤ i → i < (sortStep comp a first last).2.2 →
        comp ((sortStep comp a first last).1 i) (median5 comp a first last) = false ∧
        comp (median5 comp a first last) ((sortStep comp a first last).1 i) = false) ∧
      (∀ i, (sortStep comp a first last).2.2 ≤ i → i < last →
        comp (median5 comp a first last) ((sortStep comp a first last).1 i) = true) ∧
      ∃ a', sort comp fuel a first last = some a' ∧
        (∀ i, (sortStep comp a first last).2.1 ≤ i → i < (sortStep comp a first last).2.2 →
          a' i = (sortStep comp a first last).1 i) ∧
        ∀ i, first ≤ i → i < last →
          ((comp (a' i) (median5 comp a first last) = false ∧
              comp (median5 comp a first last) (a' i) = false) ↔
            ((sortStep comp a first last).2.1 ≤ i ∧ i < (sortStep comp a first last).2.2)) := by
  have hfl : first < last := by omega
  obtain ⟨e1, e2⟩ := sortStep_skew comp a first last hskew
  obtain ⟨s1, s2, s3, -, s5, s6, s7, s8⟩ := sortStep_spec comp a hfl
  have s8' : ∀ x ∈ window (sortStep comp a first last).1 (sortStep comp a first last).2.2 last,
      comp (median5 comp a first last) x = true := by
    rcases s8 with ⟨-, k⟩ | k
    · rw [e1] at k
      omega
    · exact k
  have left : ∀ i, first ≤ i → i < (sortStep comp a first last).2.1 →
      comp ((sortStep comp a first last).1 i) (median5 comp a first last) = true :=
    fun i h1 h2 => s5 _ (mem_window.2 ⟨i, h1, h2, rfl⟩)
  have midl : ∀ i, (sortStep comp a first last).2.1 ≤ i → i < (sortStep comp a first last).2.2 →
      comp ((sortStep comp a first last).1 i) (median5 comp a first last) = false ∧
      comp (median5 comp a first last) ((sortStep comp a first last).1 i) = false :=
    fun i h1 h2 => ⟨s6 _ (mem_window.2 ⟨i, h1, by omega, rfl⟩),
      s7 _ (mem_window.2 ⟨i, h1, h2, rfl⟩)⟩
  have right : ∀ i, (sortStep comp a first last).2.2 ≤ i → i < last →
      comp (median5 comp a first last) ((sortStep comp a first last).1 i) = true :=
    fun i h1 h2 => s8' _ (mem_window.2 ⟨i, h1, h2, rfl⟩)
  refine ⟨e1, e2, left, midl, right, ?_⟩
  obtain ⟨a', hr⟩ := sort_terminates hs.irrefl fuel a first last hfuel
  obtain ⟨fuel, rfl⟩ : ∃ f, fuel = f + 1 := ⟨fuel - 1, by omega⟩
  obtain ⟨r1, r2, r3⟩ := sort_large_regions hs.transNegTrans fuel a a' h hr
  refine ⟨a', hr, r2, fun i hi1 hi2 => ?_⟩
  constructor
  · rintro ⟨k1, k2⟩
    by_contra hne
    by_cases hi : i < (sortStep comp a first last).2.1
    · have hm : a' i ∈ window a' first (sortStep comp a first last).2.1 :=
        mem_window.2 ⟨i, hi1, hi, rfl⟩
      have := s5 _ (r1.mem_iff.1 hm)
      rw [k1] at this
      exact Bool.noConfusion this
    · have hi' : (sortStep comp a first last).2.2 ≤ i := by omega
      have hm : a' i ∈ window a' (sortStep comp a first last).2.2 last :=
        mem_window.2 ⟨i, hi', hi2, rfl⟩
      have := s8' _ (r3.mem_iff.1 hm)
      rw [k2] at this
      exact Bool.noConfusion this
  · rintro ⟨k1, k2⟩
    rw [r2 i k1 k2]
    exact midl i k1 k2

set_option maxRecDepth 100000 in
theorem sort_skew_equal_region_witness :
    StrictWeakOrder Less ∧ kSmallSortThreshold < 20 - 0 ∧
      (partition Less (median5 Less (ofList skewed20 0) 0 20) (ofList skewed20 0) 0 20).2 - 0 ≤
        (20 - 0) >>> 3 ∧
      20 - 0 < 21 ∧
      ∃ a', sort Less 21 (ofList skewed20 0) 0 20 = some a' ∧
        (∀ i, (sortStep Less (ofList skewed20 0) 0 20).2.1 ≤ i →
          i < (sortStep Less (ofList skewed20 0) 0 20).2.2 →
          a' i = (sortStep Less (ofList skewed20 0) 0 20).1 i) ∧
        ∀ i, 0 ≤ i → i < 20 →
          ((Less (a' i) (median5 Less (ofList skewed20 0) 0 20) = false ∧
              Less (median5 Less (ofList skewed20 0) 0 20) (a' i) = false) ↔
            ((sortStep Less (ofList skewed20 0) 0 20).2.1 ≤ i ∧
              i < (sortStep Less (ofList skewed20 0) 0 20).2.2)) :=
  ⟨Less_strictWeakOrder, by decide, by decide, by decide,
    (sort_skew_equal_region Less_strictWeakOrder (ofList skewed20 0) 0 20 21 (by decide)
      (by decide) (by decide)).2.2.2.2.2⟩

/-- C13: on a range of at least 17 identical elements, for a
strict-weak-order comparator, the first pass of the driver loop of `sort`
finds `mid = first`, takes the skew correction and finds `midr = last`
without changing the storage; the one recursive call is on the empty range
`[first, first)`, the loop goes on with the empty range `[last, last)` and so
ends; the nesting depth is 1 and the storage is returned unchanged. -/
theorem sort_identical_elements {α : Type} {comp : α → α → Bool} (hs : StrictWeakOrder comp)
    (a : Nat → α) (first last fuel : Nat) (v : α) (h17 : 17 ≤ last - first)
    (hall : ∀ i, first ≤ i → i < last → a i = v) (hfuel : 2 ≤ fuel) :
    (partition comp (median5 comp a first last) a first last).2 = first ∧
      (partition comp (median5 comp a first last) a first last).2 - first ≤
        (last - first) >>> 3 ∧
      sortStep comp a first last = (a, first, last) ∧
      sortDepth comp fuel a first last = some (a, 1) ∧
      nanosort comp fuel a first last = some a := by
  have hfl : first < last := by omega
  obtain ⟨-, hP, hS⟩ := sortStep_constant hs.irrefl hall hfl
  have hk : kSmallSortThreshold < last - first := by
    unfold kSmallSortThreshold
    omega
  obtain ⟨fuel, rfl⟩ : ∃ f, fuel = f + 2 := ⟨fuel - 2, by omega⟩
  have hd : sortDepth comp (fuel + 2) a first last = some (a, 1) := by
    rw [sortDepth_large comp (fuel + 1) a hk, hS]
    simp only [Nat.sub_self, le_refl, if_true]
    rw [sortDepth_small comp fuel a (by simp), BubbleSort2_empty]
    simp only [Option.some_bind]
    rw [sortDepth_small comp fuel a (by simp), BubbleSort2_empty]
    rfl
  refine ⟨by rw [hP], by rw [hP]; simp, hS, hd, ?_⟩
  have := sortDepth_fst comp (fuel + 2) a first last
  rw [hd] at this
  exact this.symm

theorem sort_identical_elements_witness :
    StrictWeakOrder Less ∧ 17 ≤ 20 - 0 ∧
      (∀ i, 0 ≤ i → i < 20 → ofList (List.replicate 20 3) 0 i = 3) ∧ 2 ≤ 2 ∧
      ((partition Less (median5 Less (ofList (List.replicate 20 3) 0) 0 20)
          (ofList (List.replicate 20 3) 0) 0 20).2 = 0 ∧
        (partition Less (median5 Less (ofList (List.replicate 20 3) 0) 0 20)
          (ofList (List.replicate 20 3) 0) 0 20).2 - 0 ≤ (20 - 0) >>> 3 ∧
        sortStep Less (ofList (List.replicate 20 3) 0) 0 20 =
          (ofList (List.replicate 20 3) 0, 0, 20) ∧
        sortDepth Less 2 (ofList (List.replicate 20 3) 0) 0 20 =
          some (ofList (List.replicate 20 3) 0, 1) ∧
        nanosort Less 2 (ofList (List.replicate 20 3) 0) 0 20 =
          some (ofList (List.replicate 20 3) 0)) :=
  ⟨Less_strictWeakOrder, by decide, by decide, by decide,
    sort_identical_elements Less_strictWeakOrder (ofList (List.replicate 20 3) 0) 0 20 2 3
      (by decide) (by decide) (by decide)⟩

/-- C14: for a strict-weak-order comparator and a range of any length,
`BubbleSort2` alone leaves the range ordered and a rearrangement of what it
held.  Its outer loop does nothing on a window of 0 or 1 elements; on a window
of `i + 2` elements it runs one pass and goes on with the window of the first
`i` elements; the pass rearranges the window and leaves at its last two
positions two elements in order, neither less than any element before them,
and these two positions are not written again. -/
theorem BubbleSort2_sorts {α : Type} {comp : α → α → Bool} (hs : StrictWeakOrder comp)
    (a : Nat → α) (first last : Nat) (hfl : first ≤ last) :
    Ordered comp (BubbleSort2 comp a first last) first last ∧
      RangePerm a (BubbleSort2 comp a first last) first last ∧
      (∀ b : Nat → α, BubbleSort2Loop comp first 0 b = b ∧ BubbleSort2Loop comp first 1 b = b) ∧
      ∀ (i : Nat) (b : Nat → α),
        BubbleSort2Loop comp first (i + 2) b =
          BubbleSort2Loop comp first i (BubbleSort2Pass comp first (i + 2) b) ∧
        RangePerm b (BubbleSort2Pass comp first (i + 2) b) first (first + (i + 2)) ∧
        comp (BubbleSort2Pass comp first (i + 2) b (first + i + 1))
          (BubbleSort2Pass comp first (i + 2) b (first + i)) = false ∧
        (∀ k, first ≤ k → k < first + i →
          comp (BubbleSort2Pass comp first (i + 2) b (first + i))
            (BubbleSort2Pass comp first (i + 2) b k) = false) ∧
        ∀ k, first + i ≤ k →
          BubbleSort2Loop comp first (i + 2) b k = BubbleSort2Pass comp first (i + 2) b k := by
  refine ⟨(ordered_iff_pairwise comp _ first last).2 (BubbleSort2_sorted hs a hfl),
    BubbleSort2_rangePerm hs.transNegTrans a hfl, fun b => ⟨rfl, rfl⟩, fun i b => ?_⟩
  obtain ⟨m1, m2⟩ := BubbleSort2Pass_max hs first i b
  refine ⟨BubbleSort2Loop_pass comp first i b, BubbleSort2Pass_rangePerm hs.transNegTrans first i b,
    m1, m2, fun k hk => ?_⟩
  rw [BubbleSort2Loop_pass]
  exact (BubbleSort2Loop_rangePerm hs.transNegTrans first i _).1 k (Or.inr hk)

theorem BubbleSort2_sorts_witness :
    StrictWeakOrder Less ∧ 0 ≤ 20 ∧
      Ordered Less (BubbleSort2 Less (ofList descending20 0) 0 20) 0 20 ∧
      RangePerm (ofList descending20 0) (BubbleSort2 Less (ofList descending20 0) 0 20) 0 20 :=
  have h := BubbleSort2_sorts Less_strictWeakOrder (ofList descending20 0) 0 20 (by decide)
  ⟨Less_strictWeakOrder, by decide, h.1, h.2.1⟩

/-- C15: for every comparator and every range of more than 16 elements, the
pass of the driver loop of `sort` makes its recursive call on `[first, mid)`
and goes on with `[midr, last)` when `mid - first ≤ last - midr`, and
otherwise makes its recursive call on `[midr, last)` and goes on with
`[first, mid)`; the range of the recursive call is the smaller of the two
and has at most half the elements of `[first, last)`. -/
theorem sort_recurses_on_smaller {α : Type} (comp : α → α → Bool) (a : Nat → α)
    (first last : Nat) (h : kSmallSortThreshold < last - first) :
    (∀ fuel, sort comp (fuel + 1) a first last =
        if (sortStep comp a first last).2.1 - first ≤ last - (sortStep comp a first last).2.2 then
          (sort comp fuel (sortStep comp a first last).1 first
            (sortStep comp a first last).2.1).bind
            fun a3 => sort comp fuel a3 (sortStep comp a first last).2.2 last
        else
          (sort comp fuel (sortStep comp a first last).1 (sortStep comp a first last).2.2
            last).bind
            fun a3 => sort comp fuel a3 first (sortStep comp a first last).2.1) ∧
      (∀ fuel, sortDepth comp (fuel + 1) a first last =
        if (sortStep comp a first last).2.1 - first ≤ last - (sortStep comp a first last).2.2 then
          (sortDepth comp fuel (sortStep comp a first last).1 first
            (sortStep comp a first last).2.1).bind fun r1 =>
            (sortDepth comp fuel r1.1 (sortStep comp a first last).2.2 last).map
              fun r2 => (r2.1, max (r1.2 + 1) r2.2)
        else
          (sortDepth comp fuel (sortStep comp a first last).1 (sortStep comp a first last).2.2
            last).bind fun r1 =>
            (sortDepth comp fuel r1.1 first (sortStep comp a first last).2.1).map
              fun r2 => (r2.1, max (r1.2 + 1) r2.2)) ∧
      ((sortStep comp a first last).2.1 - first ≤ last - (sortStep comp a first last).2.2 →
        (sortStep comp a first last).2.1 - first ≤ (last - first) / 2) ∧
      (¬ (sortStep comp a first last).2.1 - first ≤ last - (sortStep comp a first last).2.2 →
        last - (sortStep comp a first last).2.2 < (sortStep comp a first last).2.1 - first ∧
        last - (sortStep comp a first last).2.2 ≤ (last - first) / 2) := by
  have hfl : first < last := by omega
  obtain ⟨s1, s2, s3, -⟩ := sortStep_spec comp a hfl
  refine ⟨fun fuel => sort_large comp fuel a h, fun fuel => sortDepth_large comp fuel a h,
    fun hb => ?_, fun hb => ⟨by omega, ?_⟩⟩
  · rw [Nat.le_div_iff_mul_le (by decide)]
    omega
  · rw [Nat.le_div_iff_mul_le (by decide)]
    omega

set_option maxRecDepth 100000 in
theorem sort_recurses_on_smaller_witness :
    kSmallSortThreshold < 20 - 0 ∧
      ((sortStep Less (ofList descending20 0) 0 20).2.1 - 0 ≤
          20 - (sortStep Less (ofList descending20 0) 0 20).2.2 →
        (sortStep Less (ofList descending20 0) 0 20).2.1 - 0 ≤ (20 - 0) / 2) ∧
      (¬ (sortStep Less (ofList descending20 0) 0 20).2.1 - 0 ≤
          20 - (sortStep Less (ofList descending20 0) 0 20).2.2 →
        20 - (sortStep Less (ofList descending20 0) 0 20).2.2 <
          (sortStep Less (ofList descending20 0) 0 20).2.1 - 0 ∧
        20 - (sortStep Less (ofList descending20 0) 0 20).2.2 ≤ (20 - 0) / 2) :=
  ⟨by decide, (sort_recurses_on_smaller Less (ofList descending20 0) 0 20 (by decide)).2.2⟩

set_option maxRecDepth 100000 in
/-- C16, refuted as stated: on a range of 18 elements `median5` reads the
relative positions 0, 4, 8, 12, 17, while `⌊n/2⌋ = 9` and `⌊3n/4⌋ = 13`; two
storages that agree at the positions 0, 4, 9, 13, 17 get different pivots. -/
theorem median5_positions_differ :
    median5Positions 0 18 = [0, 4, 8, 12, 17] ∧
      [0, 18 / 4, 18 / 2, 3 * 18 / 4, 18 - 1] = [0, 4, 9, 13, 17] ∧
      (∀ p ∈ [0, 18 / 4, 18 / 2, 3 * 18 / 4, 18 - 1],
        ofList samples18 0 p = ofList samples18Alt 0 p) ∧
      median5 Less (ofList samples18 0) 0 18 ≠ median5 Less (ofList samples18Alt 0) 0 18 := by
  decide

/-- C16, amended: on a range of `n ≥ 17` elements the five positions
`median5` reads are, relative to `first`, `0`, `⌊n/4⌋`, `2⌊n/4⌋`, `3⌊n/4⌋`
and `n - 1`; they are increasing and inside the range; the third is `⌊n/2⌋`
and the fourth is `⌊3n/4⌋` exactly when `n mod 4 < 2`; the value of `median5`
is the network applied to the storage at these positions and depends on
nothing else. -/
theorem median5_positions {α : Type} (comp : α → α → Bool) (a b : Nat → α) (first last : Nat)
    (h : 17 ≤ last - first) :
    median5Positions first last =
        [first, first + (last - first) / 4, first + 2 * ((last - first) / 4),
          first + 3 * ((last - first) / 4), first + (last - first - 1)] ∧
      (median5Positions first last).Pairwise (fun p q => p < q) ∧
      (∀ p ∈ median5Positions first last, first ≤ p ∧ p < last) ∧
      (2 * ((last - first) / 4) = (last - first) / 2 ↔ (last - first) % 4 < 2) ∧
      (3 * ((last - first) / 4) = 3 * (last - first) / 4 ↔ (last - first) % 4 < 2) ∧
      median5 comp a first last =
        median5Net comp (a first) (a (first + (last - first) / 4))
          (a (first + 2 * ((last - first) / 4))) (a (first + 3 * ((last - first) / 4)))
          (a (first + (last - first - 1))) ∧
      ((∀ p ∈ median5Positions first last, a p = b p) →
        median5 comp a first last = median5 comp b first last) := by
  have hp := median5Positions_eq first last
  refine ⟨hp, ?_, ?_, by omega, by omega, ?_, median5_congr comp a b first last⟩
  · rw [hp]
    simp only [List.pairwise_cons, List.mem_cons, List.mem_singleton, List.not_mem_nil,
      forall_eq_or_imp, forall_eq, List.Pairwise.nil, and_true, or_false]
    exact ⟨by omega, by omega, by omega, by omega, fun _ hf => hf.elim⟩
  · rw [hp]
    simp only [List.mem_cons, List.mem_singleton, List.not_mem_nil, forall_eq_or_imp, forall_eq,
      or_false]
    omega
  · rw [median5_eq_net, hp]
    rfl

theorem median5_positions_witness :
    17 ≤ 18 - 0 ∧
      median5Positions 0 18 =
        [0, 0 + (18 - 0) / 4, 0 + 2 * ((18 - 0) / 4), 0 + 3 * ((18 - 0) / 4),
          0 + (18 - 0 - 1)] ∧
      (median5Positions 0 18).Pairwise (fun p q => p < q) ∧
      ∀ p ∈ median5Positions 0 18, 0 ≤ p ∧ p < 18 :=
  have h := median5_positions Less (ofList samples18 0) (ofList samples18Alt 0) 0 18 (by decide)
  ⟨by decide, h.1, h.2.1, h.2.2.1⟩

/-- C17, refuted as stated: on the ascending range `1, ..., 17` the counter of
comparator evaluations of `median5` goes from 0 to 7, not to 6. -/
theorem median5_seven_comparisons :
    (median5Count Less (ofList (List.range' 1 17) 0) 0 17 0).2 = 7 ∧
      (median5Count Less (ofList (List.range' 1 17) 0) 0 17 0).2 ≠ 6 := by
  decide

/-- C17, amended: `median5` evaluates the comparator exactly 7 times, for
every comparator, storage and range; its counted form returns the value of
`median5`. -/
theorem median5_comparisons {α : Type} (comp : α → α → Bool) (a : Nat → α)
    (first last c : Nat) :
    median5Count comp a first last c = (median5 comp a first last, c + 7) :=
  median5Count_eq comp a first last c

/-- C18: for every comparator, pivot and range, `partition` returns `first`
plus the number of elements of the range that compare less than the pivot,
and the block it leaves before the boundary holds exactly these elements in
their original order; the whole range is rearranged. -/
theorem partition_stable_left {α : Type} (comp : α → α → Bool) (pivot : α) (a : Nat → α)
    (first last : Nat) (h : first ≤ last) :
    (partition comp pivot a first last).2 =
        first + (window a first last).countP (fun x => comp x pivot) ∧
      window (partition comp pivot a first last).1 first (partition comp pivot a first last).2 =
        (window a first last).filter (fun x => comp x pivot) ∧
      (window (partition comp pivot a first last).1 first last).Perm (window a first last) :=
  ⟨(partition_filter comp pivot a h).2, (partition_filter comp pivot a h).1,
    (partition_spec comp pivot a h).2.2.2.2.2⟩

set_option maxRecDepth 100000 in
theorem partition_stable_left_witness :
    0 ≤ 9 ∧
      (partition Less 5 (ofList [5, 3, 8, 1, 9, 2, 7, 4, 6] 0) 0 9).2 = 0 + 4 ∧
      window (partition Less 5 (ofList [5, 3, 8, 1, 9, 2, 7, 4, 6] 0) 0 9).1 0
          (partition Less 5 (ofList [5, 3, 8, 1, 9, 2, 7, 4, 6] 0) 0 9).2 = [3, 1, 2, 4] :=
  have h := partition_stable_left Less 5 (ofList [5, 3, 8, 1, 9, 2, 7, 4, 6] 0) 0 9 (by decide)
  ⟨by decide, h.1.trans (by decide), h.2.1.trans (by decide)⟩

/-- C19: for a strict-weak-order comparator and a range of `n ≥ 17` elements,
`median5` returns one of the five values it samples; at least three of the
five samples are not greater than it and at least two are not less than it;
and the range holds an element equivalent to it. -/
theorem median5_rank {α : Type} {comp : α → α → Bool} (hs : StrictWeakOrder comp)
    (a : Nat → α) (first last : Nat) (h : 17 ≤ last - first) :
    median5 comp a first last ∈ (median5Positions first last).map a ∧
      3 ≤ ((median5Positions first last).map a).countP
        (fun x => !comp (median5 comp a first last) x) ∧
      2 ≤ ((median5Positions first last).map a).countP
        (fun x => !comp x (median5 comp a first last)) ∧
      ∃ i, first ≤ i ∧ i < last ∧ comp (a i) (median5 comp a first last) = false ∧
        comp (median5 comp a first last) (a i) = false := by
  have hc := median5Net_counts hs (a (first + ((last - first) >>> 2) * 0))
    (a (first + ((last - first) >>> 2) * 1)) (a (first + ((last - first) >>> 2) * 2))
    (a (first + ((last - first) >>> 2) * 3)) (a (first + (last - first - 1)))
  refine ⟨median5Net_mem comp _ _ _ _ _, hc.1, hc.2, ?_⟩
  obtain ⟨i, i1, i2, i3⟩ := mem_window.1 (median5_mem_window comp a (show first < last by omega))
  exact ⟨i, i1, i2, by rw [i3]; exact hs.irrefl _, by rw [i3]; exact hs.irrefl _⟩

theorem median5_rank_witness :
    StrictWeakOrder Less ∧ 17 ≤ 17 - 0 ∧
      (median5 Less (ofList (List.range' 1 17) 0) 0 17 ∈
          (median5Positions 0 17).map (ofList (List.range' 1 17) 0) ∧
        3 ≤ ((median5Positions 0 17).map (ofList (List.range' 1 17) 0)).countP
          (fun x => !Less (median5 Less (ofList (List.range' 1 17) 0) 0 17) x) ∧
        2 ≤ ((median5Positions 0 17).map (ofList (List.range' 1 17) 0)).countP
          (fun x => !Less x (median5 Less (ofList (List.range' 1 17) 0) 0 17)) ∧
        ∃ i, 0 ≤ i ∧ i < 17 ∧
          Less (ofList (List.range' 1 17) 0 i)
            (median5 Less (ofList (List.range' 1 17) 0) 0 17) = false ∧
          Less (median5 Less (ofList (List.range' 1 17) 0) 0 17)
            (ofList (List.range' 1 17) 0 i) = false) :=
  ⟨Less_strictWeakOrder, by decide,
    median5_rank Less_strictWeakOrder (ofList (List.range' 1 17) 0) 0 17 (by decide)⟩

/-- C20: for a strict-weak-order comparator and a range of any length,
`BubbleSort2` leaves exactly the storage that `BubbleSort` leaves, and both
are stable: for every element `v`, the elements of the range equivalent to
`v` come out in the order in which they came in. -/
theorem BubbleSort2_eq_BubbleSort {α : Type} {comp : α → α → Bool} (hs : StrictWeakOrder comp)
    (a : Nat → α) (first last : Nat) (hfl : first ≤ last) :
    BubbleSort2 comp a first last = BubbleSort comp a first last ∧
      (∀ v, (window (BubbleSort comp a first last) first last).filter (equivTo comp v) =
        (window a first last).filter (equivTo comp v)) ∧
      ∀ v, (window (BubbleSort2 comp a first last) first last).filter (equivTo comp v) =
        (window a first last).filter (equivTo comp v) := by
  have he : BubbleSort2 comp a first last = BubbleSort comp a first last :=
    (BubbleSortLoop_eq hs first (last - first) a).symm
  have hst : ∀ v, (window (BubbleSort comp a first last) first last).filter (equivTo comp v) =
      (window a first last).filter (equivTo comp v) := by
    intro v
    have := BubbleSortLoop_stable hs first v (last - first) a
    rw [show first + (last - first) = last by omega] at this
    exact this
  refine ⟨he, hst, fun v => ?_⟩
  rw [he]
  exact hst v

set_option maxRecDepth 100000 in
theorem BubbleSort2_eq_BubbleSort_witness :
    StrictWeakOrder keyLess ∧ 0 ≤ 5 ∧
      BubbleSort2 keyLess (ofList [(1, 0), (0, 1), (1, 2), (0, 3), (1, 4)] (0, 0)) 0 5 =
        BubbleSort keyLess (ofList [(1, 0), (0, 1), (1, 2), (0, 3), (1, 4)] (0, 0)) 0 5 ∧
      window (BubbleSort2 keyLess (ofList [(1, 0), (0, 1), (1, 2), (0, 3), (1, 4)] (0, 0)) 0 5)
        0 5 = [(0, 1), (0, 3), (1, 0), (1, 2), (1, 4)] :=
  ⟨keyLess_strictWeakOrder, by decide,
    (BubbleSort2_eq_BubbleSort keyLess_strictWeakOrder
      (ofList [(1, 0), (0, 1), (1, 2), (0, 3), (1, 4)] (0, 0)) 0 5 (by decide)).1,
    by decide⟩
